import Mathlib

/-!
Verification of the MXCM M3U/XMLTV channel matcher core (`core.py`) against
its natural-language specification.

The embedding models Python strings as `List Char` (`Str`), Python dicts as
function updates with last-write-wins semantics, and Python sets as lists
with membership-tested insertion.  Every definition mirrors a function of
`core.py`; the similarity scorer coming from the external `fuzzywuzzy`
library is a parameter of the matching engine (the spec only promises that it
is a 0-100 ratio).
-/

/-- Python strings, modelled as lists of characters. -/
abbrev Str := List Char

/-- The whitespace class used by Python's `\s` regex class and `str.strip()`
(restricted to the ASCII whitespace characters, which is what channel-name
data contains). -/
def pyIsSpace (c : Char) : Bool :=
  c = ' ' ∨ c = '\t' ∨ c = '\n' ∨ c = '\r' ∨ c = '\x0b' ∨ c = '\x0c'

/-- Python `str.lower()` on a single character (ASCII range). -/
def pyLower (c : Char) : Char := c.toLower

/-- The character class kept by the regex `[^a-z0-9\s]` deletion in
`normalize_name`: lowercase ASCII letters, digits, and whitespace. -/
def keepChar (c : Char) : Bool :=
  ( 'a' ≤ c ∧ c ≤ 'z') ∨ ( '0' ≤ c ∧ c ≤ '9') ∨ pyIsSpace c

/-- State-machine form of the regex substitution `\s+` → `" "`: the flag
records whether the previous character was whitespace (in which case further
whitespace is absorbed into the single space already emitted). -/
def collapseAux : Bool → Str → Str
  | _, [] => []
  | inSpace, c :: cs =>
    if pyIsSpace c then
      if inSpace then collapseAux true cs else ' ' :: collapseAux true cs
    else c :: collapseAux false cs

/-- `re.sub(r'\s+', ' ', s)`: collapse every maximal whitespace run to one
space. -/
def collapseSpaces (s : Str) : Str := collapseAux false s

/-- Python `str.strip()`: drop whitespace from both ends. -/
def pyStrip (s : Str) : Str :=
  ((s.dropWhile pyIsSpace).reverse.dropWhile pyIsSpace).reverse

/-- Helper for `pySplit`: accumulates the current word (reversed). -/
def splitAux : Str → Str → List Str
  | [], acc => if acc = [] then [] else [acc.reverse]
  | c :: cs, acc =>
    if pyIsSpace c then
      if acc = [] then splitAux cs [] else acc.reverse :: splitAux cs []
    else splitAux cs (c :: acc)

/-- Python `str.split()` with no argument: split on whitespace runs,
producing no empty words. -/
def pySplit (s : Str) : List Str := splitAux s []

/-- `core.py` `normalize_name`: lowercase, delete every character that is not
a lowercase letter, digit or whitespace, collapse whitespace runs to a single
space, and strip the ends. -/
def normalize_name (name : Str) : Str :=
  pyStrip (collapseSpaces ((name.map pyLower).filter keepChar))

/-! ### Data model (`parse_m3u` / `parse_xmltv` records) -/

/-- One playlist entry, as produced by `parse_m3u` in `core.py` (source-file
name omitted: no claim mentions it). -/
structure M3uChannel where
  name : Str
  url : Str
  original_extinf : Str
  tvg_id : Str
  group_title : Str
  tvg_logo : Str
deriving DecidableEq

/-- One guide channel, as produced by `parse_xmltv` in `core.py` (the opaque
`element` subtree reference and source-file name are omitted here; the
subtree is modelled separately for the guide generator). -/
structure XmltvChannel where
  id : Str
  display_name : Str
  all_display_names : List Str
  icon : Str
deriving DecidableEq

/-- One match record of `auto_match_channels` (`processed_channels_data`
items). -/
structure ProcessedChannel where
  m3u_data : M3uChannel
  xmltv_match : Option XmltvChannel
  score : Nat
  selected : Bool
deriving DecidableEq

/-! ### Index construction (`build_xmltv_indices`) -/

/-- Python dict assignment `m[k] = v`: function update, last write wins. -/
def dictInsert {α : Type} (m : Str → Option α) (k : Str) (v : α) : Str → Option α :=
  fun q => if q = k then some v else m q

/-- Python `set.add`: append the element unless it is already present. -/
def insertNew (l : List Str) (x : Str) : List Str :=
  if x ∈ l then l else l ++ [x]

/-- `token_index.setdefault(token, set()).add(x)`. -/
def tokenAdd (m : Str → List Str) (tok x : Str) : Str → List Str :=
  fun q => if q = tok then insertNew (m q) x else m q

/-- `{normalize_name(ch['display_name']): ch for ch in xmltv_channels}`. -/
def channels_by_display_name (xmltv_channels : List XmltvChannel) :
    Str → Option XmltvChannel :=
  xmltv_channels.foldl
    (fun m ch => dictInsert m (normalize_name ch.display_name) ch) (fun _ => none)

/-- `{ch['id']: ch for ch in xmltv_channels if 'id' in ch}` (the `'id' in ch`
test is always true for parsed records). -/
def channels_by_id (xmltv_channels : List XmltvChannel) : Str → Option XmltvChannel :=
  xmltv_channels.foldl (fun m ch => dictInsert m ch.id ch) (fun _ => none)

/-- The token inverted index: every token of length > 1 of each channel's
normalized primary display name maps to the set of original display names
containing it. -/
def token_index (xmltv_channels : List XmltvChannel) : Str → List Str :=
  xmltv_channels.foldl
    (fun m ch =>
      (pySplit (normalize_name ch.display_name)).foldl
        (fun m' tok => if 1 < tok.length then tokenAdd m' tok ch.display_name else m') m)
    (fun _ => [])

/-- `build_xmltv_indices`: the triple of lookup structures. -/
def build_xmltv_indices (xmltv_channels : List XmltvChannel) :
    (Str → List Str) × (Str → Option XmltvChannel) × (Str → Option XmltvChannel) :=
  (token_index xmltv_channels, channels_by_display_name xmltv_channels,
    channels_by_id xmltv_channels)

/-! ### Matching engine (`auto_match_channels`) -/

/-- One comparison step of `process.extractOne`: keep the incumbent unless
the new choice scores strictly higher (so the first maximum wins). -/
def extractStep (ratio : Str → Str → Nat) (query : Str) (best : Option (Str × Nat))
    (c : Str) : Option (Str × Nat) :=
  match best with
  | none => some (c, ratio query c)
  | some (bn, bs) => if bs < ratio query c then some (c, ratio query c) else some (bn, bs)

/-- `fuzzywuzzy.process.extractOne(query, choices, scorer=fuzz.ratio)`:
scan the choices and keep the first highest-scoring one; `none` exactly when
`choices` is empty.  The scorer is a parameter: it is external library code,
promised by the spec to be a 0-100 similarity ratio. -/
def extractOne (ratio : Str → Str → Nat) (query : Str) (choices : List Str) :
    Option (Str × Nat) :=
  choices.foldl (extractStep ratio query) none

/-- The fuzzy candidate set: union over every token of length > 1 of the
entry's normalized name of that token's index set. -/
def candidateNames (tokIdx : Str → List Str) (normName : Str) : List Str :=
  (pySplit normName).foldl
    (fun cand tok => if 1 < tok.length then (tokIdx tok).foldl insertNew cand else cand)
    []

/-- `choices = list(candidate_names) if candidate_names else all_names`. -/
def fuzzyChoices (tokIdx : Str → List Str) (all_names : List Str) (normName : Str) :
    List Str :=
  if candidateNames tokIdx normName = [] then all_names else candidateNames tokIdx normName

/-- The per-call context of the matching loop: the scorer, the three indices,
the full display-name list, the threshold and the continuity flag. -/
structure MatchCtx where
  ratio : Str → Str → Nat
  tokIdx : Str → List Str
  byName : Str → Option XmltvChannel
  byId : Str → Option XmltvChannel
  all_names : List Str
  threshold : Nat
  preserve_existing : Bool

/-- Context assembled by `auto_match_channels` from the guide catalog. -/
def matchCtx (ratio : Str → Str → Nat) (xmltv_channels : List XmltvChannel)
    (threshold : Nat) (preserve_existing : Bool) : MatchCtx :=
  { ratio := ratio
    tokIdx := token_index xmltv_channels
    byName := channels_by_display_name xmltv_channels
    byId := channels_by_id xmltv_channels
    all_names := xmltv_channels.map (fun ch => ch.display_name)
    threshold := threshold
    preserve_existing := preserve_existing }

/-- The loop body of `auto_match_channels` for one playlist entry: rule 1
(identifier continuity), rule 2 (exact normalized name), rule 3 (token-
filtered fuzzy match). -/
def matchOne (ctx : MatchCtx) (m3u_channel : M3uChannel) : ProcessedChannel :=
  let tvg_id := pyStrip m3u_channel.tvg_id
  let pair : Option XmltvChannel × Nat :=
    if ctx.preserve_existing = true ∧ tvg_id ≠ [] ∧ (ctx.byId tvg_id).isSome then
      (ctx.byId tvg_id, 100)
    else
      match ctx.byName (normalize_name m3u_channel.name) with
      | some gc => (some gc, 100)
      | none =>
        match extractOne ctx.ratio m3u_channel.name
            (fuzzyChoices ctx.tokIdx ctx.all_names (normalize_name m3u_channel.name)) with
        | some (matched_name, sc) => (ctx.byName (normalize_name matched_name), sc)
        | none => (none, 0)
  { m3u_data := m3u_channel
    xmltv_match := pair.1
    score := pair.2
    selected := decide (ctx.threshold ≤ pair.2) }

/-- Observable events of the matching loop: the progress-callback invocation
(with its 1-based argument) and the completion of one entry's processing
(the append of its result record, by 0-based entry index). -/
inductive MatchEvent where
  | progress (k : Nat)
  | processed (i : Nat)
deriving DecidableEq

/-- The `for i, m3u_channel in enumerate(m3u_channels)` loop: the callback
fires at the top of each iteration with `i + 1`; the result record is
appended at the bottom. -/
def auto_match_loop (ctx : MatchCtx) :
    List M3uChannel → Nat → List ProcessedChannel × List MatchEvent
  | [], _ => ([], [])
  | ch :: rest, i =>
    let r := matchOne ctx ch
    let tail := auto_match_loop ctx rest (i + 1)
    (r :: tail.1, MatchEvent.progress (i + 1) :: MatchEvent.processed i :: tail.2)

/-- `auto_match_channels` with its event trace: an empty guide catalog
short-circuits to an empty result list with no events. -/
def auto_match_run (ratio : Str → Str → Nat) (m3u_channels : List M3uChannel)
    (xmltv_channels : List XmltvChannel) (threshold : Nat) (preserve_existing : Bool) :
    List ProcessedChannel × List MatchEvent :=
  if xmltv_channels = [] then ([], [])
  else auto_match_loop (matchCtx ratio xmltv_channels threshold preserve_existing)
    m3u_channels 0

/-- `core.py` `auto_match_channels`: the returned result list. -/
def auto_match_channels (ratio : Str → Str → Nat) (m3u_channels : List M3uChannel)
    (xmltv_channels : List XmltvChannel) (threshold : Nat) (preserve_existing : Bool) :
    List ProcessedChannel :=
  (auto_match_run ratio m3u_channels xmltv_channels threshold preserve_existing).1

/-- The event trace of one `auto_match_channels` run. -/
def auto_match_events (ratio : Str → Str → Nat) (m3u_channels : List M3uChannel)
    (xmltv_channels : List XmltvChannel) (threshold : Nat) (preserve_existing : Bool) :
    List MatchEvent :=
  (auto_match_run ratio m3u_channels xmltv_channels threshold preserve_existing).2

/-- The argument of a progress-callback event, if the event is one. -/
def progressArg : MatchEvent → Option Nat
  | MatchEvent.progress k => some k
  | MatchEvent.processed _ => none

/-! ### Playlist generator (`generate_m3u`) -/

/-- The literal `tvg-id="` that opens an identifier attribute. -/
def tvgOpen : Str := "tvg-id=\"".toList

/-- The attribute text `tvg-id="<id>"` matched or produced by the rewrite. -/
def tvgAttr (xid : Str) : Str := tvgOpen ++ xid ++ [ '\"' ]

/-- Match of the regex `tvg-id="[^"]*"` at the head of the string: yields
the attribute value and the remainder after the closing quote. -/
def matchTvgAt (s : Str) : Option (Str × Str) :=
  if s.take 8 = tvgOpen then
    match (s.drop 8).dropWhile (fun c => c ≠ '\"') with
    | [] => none
    | _ :: tail => some ((s.drop 8).takeWhile (fun c => c ≠ '\"'), tail)
  else none

/-- Count of non-overlapping matches of `tvg-id="[^"]*"`, scanning left to
right as `re` does; the second argument counts characters of an already
recognized match still to be skipped. -/
def countTvgAux : Str → Nat → Nat
  | [], _ => 0
  | _ :: cs, skip + 1 => countTvgAux cs skip
  | c :: cs, 0 =>
    match matchTvgAt (c :: cs) with
    | some (v, _) => 1 + countTvgAux cs (7 + v.length + 1)
    | none => countTvgAux cs 0

/-- Number of identifier attributes (`tvg-id="[^"]*"` matches) in a string. -/
def countTvg (s : Str) : Nat := countTvgAux s 0

/-- `re.sub(r'tvg-id="[^"]*"', f'tvg-id="{xid}"', s)`: replace every
non-overlapping match of the identifier attribute. -/
def replaceTvgAux (xid : Str) : Str → Nat → Str
  | [], _ => []
  | _ :: cs, skip + 1 => replaceTvgAux xid cs skip
  | c :: cs, 0 =>
    match matchTvgAt (c :: cs) with
    | some (v, _) => tvgAttr xid ++ replaceTvgAux xid cs (7 + v.length + 1)
    | none => c :: replaceTvgAux xid cs 0

/-- The full identifier-attribute substitution of `generate_m3u`. -/
def replaceTvgAll (xid s : Str) : Str := replaceTvgAux xid s 0

/-- The leading `#EXTINF:` literal. -/
def extinfHead : Str := "#EXTINF:".toList

/-- Match of the regex `#EXTINF:[-]?\d+` at the head of the string: the
matched text (head, optional minus, greedy digits) and the remainder. -/
def extinfNumAt (s : Str) : Option (Str × Str) :=
  if s.take 8 = extinfHead then
    let rest := s.drop 8
    let sign : Str := if rest.head? = some '-' then [ '-' ] else []
    let rest2 := rest.drop sign.length
    let ds := rest2.takeWhile (fun c => c.isDigit)
    if ds = [] then none
    else some (extinfHead ++ sign ++ ds, rest2.drop ds.length)
  else none

/-- `re.sub(r'(#EXTINF:[-]?\d+)', r'\1 tvg-id="<xid>"', s, 1)`: insert the
identifier attribute after the first leading-numeric-field match; the
identity when the pattern matches nowhere. -/
def insertTvgAfterNum (xid : Str) : Str → Str
  | [] => []
  | c :: cs =>
    match extinfNumAt (c :: cs) with
    | some (m, rest) => m ++ ( ' ' :: tvgAttr xid) ++ rest
    | none => c :: insertTvgAfterNum xid cs

/-- `s.rfind(',')`: index of the last comma, if any. -/
def rfindComma : Str → Option Nat
  | [] => none
  | c :: cs =>
    match rfindComma cs with
    | some k => some (k + 1)
    | none => if c = ',' then some 0 else none

/-- The text after the last comma (the display-name field of a descriptor);
the whole string when there is no comma. -/
def afterLastComma (s : Str) : Str :=
  match rfindComma s with
  | some k => s.drop (k + 1)
  | none => s

/-- The descriptor rewrite of `generate_m3u` for one selected entry: rewrite
any identifier attribute to the matched channel's identifier, insert one
after the leading numeric field if absent, then replace the text after the
final comma with the matched channel's primary display name. -/
def rewriteExtinf (extinf xid dn : Str) : Str :=
  let s1 := replaceTvgAll xid extinf
  let s2 := if tvgAttr xid <:+: s1 then s1 else insertTvgAfterNum xid s1
  match rfindComma s2 with
  | some k => s2.take (k + 1) ++ dn
  | none => s2

/-- The descriptor line actually written: `f.write(new_extinf.strip() + "\n")`. -/
def writtenDescriptor (extinf xid dn : Str) : Str :=
  pyStrip (rewriteExtinf extinf xid dn)

/-- `core.py` `generate_m3u`: the header line, then for every selected
associated entry the rewritten stripped descriptor line and the URL line;
returns the written lines and the count of entries written. -/
def generate_m3u (processed_channels_data : List ProcessedChannel) : List Str × Nat :=
  processed_channels_data.foldl
    (fun st item =>
      match item.xmltv_match with
      | some xmltv =>
        if item.selected then
          (st.1 ++ [writtenDescriptor item.m3u_data.original_extinf xmltv.id
              xmltv.display_name, item.m3u_data.url], st.2 + 1)
        else st
      | none => st)
    ([ "#EXTM3U".toList ], 0)

/-- The property "the string contains a `tvg-id="[^"]*"` match". -/
def HasTvgOcc (s : Str) : Prop :=
  ∃ a v b, '\"' ∉ v ∧ s = a ++ tvgOpen ++ v ++ ( '\"' :: b)

/-! ### Sample data for concrete witnesses -/

/-- Modelled from the spec: a stand-in for the external `fuzzywuzzy` scorer,
which the spec promises is a 0-100 similarity ratio with 100 meaning
identical text.  Used only to instantiate witnesses; no claim depends on the
scorer's inner behavior. -/
def sampleRatio : Str → Str → Nat := fun a b => if a = b then 100 else 0

/-- A playlist entry with an identifier hint. -/
def sampleM3uId : M3uChannel :=
  { name := "HBO".toList
    url := "http://u".toList
    original_extinf := "#EXTINF:-1 tvg-id=\"x\",HBO".toList
    tvg_id := "x".toList
    group_title := []
    tvg_logo := [] }

/-- A playlist entry with no identifier hint. -/
def sampleM3uNoId : M3uChannel :=
  { name := "HBO East HD".toList
    url := "http://u2".toList
    original_extinf := "#EXTINF:-1,HBO East HD".toList
    tvg_id := []
    group_title := []
    tvg_logo := [] }

/-- A guide channel. -/
def sampleGuide : XmltvChannel :=
  { id := "x".toList
    display_name := "HBO East HD".toList
    all_display_names := ["HBO East HD".toList]
    icon := [] }

/-! ### Guide generator (`generate_xmltv`) -/

/-- One `<programme>` element of a guide source: the channel attribute and
an opaque payload standing for the rest of the subtree. -/
structure XmltvProgramme where
  channel : Str
  payload : Str
deriving DecidableEq

/-- One `<channel>` element of a guide source as re-parsed in pass 1: its
identifier and an opaque `element` payload standing for the full subtree. -/
structure XmltvSourceChannel where
  id : Str
  element : Str
deriving DecidableEq

/-- One guide source file: its channel subtrees and programme entries in
document order. -/
structure XmltvSourceFile where
  channels : List XmltvSourceChannel
  programmes : List XmltvProgramme
deriving DecidableEq

/-- One element written to the output document. -/
inductive XmltvOutElem where
  | channel (id : Str) (element : Str)
  | programme (p : XmltvProgramme)
deriving DecidableEq

/-- Whether an output element is a programme entry. -/
def isProgElem : XmltvOutElem → Bool
  | XmltvOutElem.programme _ => true
  | XmltvOutElem.channel _ _ => false

/-- The identifier of a channel output element. -/
def chanIdOf : XmltvOutElem → Option Str
  | XmltvOutElem.channel i _ => some i
  | XmltvOutElem.programme _ => none

/-- The result of `generate_xmltv`: the emitted document (absent when the
generator aborts because no channel was selected) and the returned channel
and programme counts. -/
structure XmltvGenResult where
  doc : Option (List XmltvOutElem)
  channelCount : Nat
  programCount : Nat
deriving DecidableEq

/-- Python `s1 <= s2` on strings: lexicographic comparison by code point. -/
def strLe : Str → Str → Bool
  | [], _ => true
  | _ :: _, [] => false
  | a :: as, b :: bs => if a < b then true else if a = b then strLe as bs else false

/-- Insertion into a sorted list, used to model Python `sorted`. -/
def insortStr (x : Str) : List Str → List Str
  | [] => [x]
  | y :: ys => if strLe x y then x :: y :: ys else y :: insortStr x ys

/-- Python `sorted` on a list of strings (insertion sort; every comparison
sort agrees on a list of distinct keys). -/
def sortStrs : List Str → List Str
  | [] => []
  | x :: xs => insortStr x (sortStrs xs)

/-- `full_channel_data_map`: the freshest re-parsed subtree for each truthy
channel identifier across all source files, last write wins. -/
def fullChannelDataMap (files : List XmltvSourceFile) : Str → Option Str :=
  (files.flatMap (fun f => f.channels)).foldl
    (fun m ch => if ch.id ≠ [] then dictInsert m ch.id ch.element else m)
    (fun _ => none)

/-- Pass 1 of `generate_xmltv` over the match results: the wanted-identifier
set (`selected_channel_ids`) and the first-encounter capture order of the
channel subtrees present in the fresh source map
(`channel_elements_to_write`). -/
def xmltvPass1Step (fullMap : Str → Option Str) (st : List Str × List Str)
    (item : ProcessedChannel) : List Str × List Str :=
  match item.xmltv_match with
  | some xmltv =>
    if item.selected = true ∧ xmltv.id ≠ [] then
      (insertNew st.1 xmltv.id,
        if (fullMap xmltv.id).isSome ∧ xmltv.id ∉ st.2 then st.2 ++ [xmltv.id]
        else st.2)
    else st
  | none => st

def xmltvPass1 (fullMap : Str → Option Str) (processed : List ProcessedChannel) :
    List Str × List Str :=
  processed.foldl (xmltvPass1Step fullMap) ([], [])

/-- `core.py` `generate_xmltv`: re-parse the sources, collect the wanted
channel identifiers and their fresh subtrees, abort when nothing is
selected, else write the captured channel subtrees sorted by identifier
followed by every programme entry whose channel is wanted, streaming file by
file, and return the distinct-channel and programme counts. -/
def generate_xmltv (processed : List ProcessedChannel) (files : List XmltvSourceFile) :
    XmltvGenResult :=
  let fullMap := fullChannelDataMap files
  let st := xmltvPass1 fullMap processed
  if st.1 = [] then ⟨none, 0, 0⟩
  else
    let chanElems := (sortStrs st.2).filterMap
      (fun i => (fullMap i).map (fun el => XmltvOutElem.channel i el))
    let progs := files.flatMap
      (fun f => f.programmes.filter (fun p => decide (p.channel ∈ st.1)))
    ⟨some (chanElems ++ progs.map XmltvOutElem.programme), st.2.length, progs.length⟩

/-- A guide source: channels `x` and `y`, three programmes of which two
reference channel `x`. -/
def sampleFile : XmltvSourceFile :=
  { channels := [⟨ "x".toList, "elx".toList⟩, ⟨ "y".toList, "ely".toList⟩]
    programmes := [⟨ "x".toList, "p1".toList⟩, ⟨ "y".toList, "p2".toList⟩,
      ⟨ "x".toList, "p3".toList⟩] }

/-- A playlist entry whose descriptor has no identifier attribute and no
leading numeric field after `#EXTINF:`. -/
def sampleM3uNoNum : M3uChannel :=
  { name := "Old".toList
    url := "http://u3".toList
    original_extinf := "#EXTINF:,Old".toList
    tvg_id := []
    group_title := []
    tvg_logo := [] }

/-- A guide channel with a short display name. -/
def sampleGuideNew : XmltvChannel :=
  { id := "x".toList
    display_name := "New".toList
    all_display_names := ["New".toList]
    icon := [] }

/-! ### Facts about the normalizer, leading to idempotence (claim C10) -/

theorem pyLower_keepChar_fixed {c : Char} (h : keepChar c = true) : pyLower c = c := by
  have hno : ¬(c.toNat ≥ 65 ∧ c.toNat ≤ 90) := by
    simp only [keepChar, pyIsSpace, decide_eq_true_eq, Bool.or_eq_true] at h
    rcases h with h | h | h
    · have h1 : ( 'a' : Char).val ≤ c.val := Char.le_def.mp h.1
      have h1' : 97 ≤ c.toNat := h1
      omega
    · have h2 : c.val ≤ ( '9' : Char).val := Char.le_def.mp h.2
      have h2' : c.toNat ≤ 57 := h2
      omega
    · rcases h with h | h | h | h | h | h <;> subst h <;> decide
  simp only [pyLower, Char.toLower, hno, if_false]

theorem keepChar_space : keepChar ' ' = true := by decide

theorem pyLower_space : pyLower ' ' = ' ' := by decide

/-- Characters of the output of `collapseAux` are either the single space it
emits or non-whitespace characters of the input. -/
theorem mem_collapseAux {c : Char} :
    ∀ (b : Bool) (s : Str), c ∈ collapseAux b s → c = ' ' ∨ (c ∈ s ∧ pyIsSpace c = false) := by
  intro b s
  induction s generalizing b with
  | nil => intro h; simp [collapseAux] at h
  | cons d ds ih =>
    intro h
    by_cases hd : pyIsSpace d = true
    · cases b with
      | true =>
        simp only [collapseAux, hd, if_true] at h
        rcases ih true h with h' | h'
        · exact Or.inl h'
        · exact Or.inr ⟨List.mem_cons_of_mem _ h'.1, h'.2⟩
      | false =>
        simp only [collapseAux, hd, if_true] at h
        simp only [Bool.false_eq_true, if_false, List.mem_cons] at h
        rcases h with h | h
        · exact Or.inl h
        · rcases ih true h with h' | h'
          · exact Or.inl h'
          · exact Or.inr ⟨List.mem_cons_of_mem _ h'.1, h'.2⟩
    · simp only [collapseAux, hd, Bool.false_eq_true, if_false, List.mem_cons] at h
      rcases h with h | h
      · subst h
        exact Or.inr ⟨List.mem_cons_self _ _, by simpa using hd⟩
      · rcases ih false h with h' | h'
        · exact Or.inl h'
        · exact Or.inr ⟨List.mem_cons_of_mem _ h'.1, h'.2⟩

theorem mem_pyStrip {c : Char} {s : Str} (h : c ∈ pyStrip s) : c ∈ s := by
  simp only [pyStrip, List.mem_reverse] at h
  have h1 := (List.dropWhile_sublist (l := (s.dropWhile pyIsSpace).reverse) pyIsSpace).mem h
  rw [List.mem_reverse] at h1
  exact (List.dropWhile_sublist (l := s) pyIsSpace).mem h1

/-- Every character of a normalized name is a kept, already-lowercase
character, and every whitespace character in it is the plain space. -/
theorem mem_normalize_name {c : Char} {s : Str} (h : c ∈ normalize_name s) :
    keepChar c = true ∧ pyLower c = c ∧ (pyIsSpace c = true → c = ' ') := by
  have h1 : c ∈ collapseSpaces ((s.map pyLower).filter keepChar) := mem_pyStrip h
  rcases mem_collapseAux false _ h1 with h2 | h2
  · subst h2
    exact ⟨keepChar_space, pyLower_space, fun _ => rfl⟩
  · have hk : keepChar c = true := List.of_mem_filter h2.1
    exact ⟨hk, pyLower_keepChar_fixed hk, fun hsp => by simp [h2.2] at hsp⟩

/-- No two adjacent whitespace characters. -/
def NoTwoSpaces (s : Str) : Prop :=
  List.Chain' (fun a b => ¬(pyIsSpace a = true ∧ pyIsSpace b = true)) s

theorem collapseAux_true_head {s : Str} {d : Char}
    (h : (collapseAux true s).head? = some d) : pyIsSpace d = false := by
  induction s with
  | nil => simp [collapseAux] at h
  | cons c cs ih =>
    by_cases hc : pyIsSpace c = true
    · simp only [collapseAux, hc, if_true] at h
      exact ih h
    · simp only [collapseAux, hc, Bool.false_eq_true, if_false, List.head?_cons,
        Option.some_inj] at h
      subst h
      simpa using hc

theorem noTwoSpaces_collapseAux : ∀ (b : Bool) (s : Str), NoTwoSpaces (collapseAux b s) := by
  intro b s
  induction s generalizing b with
  | nil => simp [collapseAux, NoTwoSpaces]
  | cons c cs ih =>
    by_cases hc : pyIsSpace c = true
    · cases b with
      | true => simpa only [collapseAux, hc, if_true] using ih true
      | false =>
        simp only [collapseAux, hc, if_true, Bool.false_eq_true, if_false]
        refine List.chain'_cons'.mpr ⟨?_, ih true⟩
        intro y hy hcontra
        have := collapseAux_true_head hy
        simp [this] at hcontra
    · simp only [collapseAux, hc, Bool.false_eq_true, if_false]
      refine List.chain'_cons'.mpr ⟨?_, ih false⟩
      intro y hy hcontra
      simp [hcontra.1] at hc

theorem noTwoSpaces_dropWhile {s : Str} (h : NoTwoSpaces s) :
    NoTwoSpaces (s.dropWhile pyIsSpace) := by
  induction s with
  | nil => simpa using h
  | cons c cs ih =>
    rw [List.dropWhile_cons]
    split
    · exact ih (List.Chain'.tail h)
    · exact h

theorem noTwoSpaces_reverse {s : Str} (h : NoTwoSpaces s) : NoTwoSpaces s.reverse := by
  rw [NoTwoSpaces, List.chain'_reverse]
  exact h.imp (fun a b hab => fun hc => hab ⟨hc.2, hc.1⟩)

theorem noTwoSpaces_pyStrip {s : Str} (h : NoTwoSpaces s) : NoTwoSpaces (pyStrip s) := by
  unfold pyStrip
  exact noTwoSpaces_reverse (noTwoSpaces_dropWhile (noTwoSpaces_reverse (noTwoSpaces_dropWhile h)))

theorem head?_dropWhile_not {p : Char → Bool} :
    ∀ {s : Str} {d : Char}, (s.dropWhile p).head? = some d → p d = false := by
  intro s
  induction s with
  | nil => intro d h; simp at h
  | cons c cs ih =>
    intro d h
    rw [List.dropWhile_cons] at h
    split at h
    · exact ih h
    · next hc =>
      simp only [List.head?_cons, Option.some_inj] at h
      subst h
      simpa using hc

theorem pyStrip_head {s : Str} {d : Char} (h : (pyStrip s).head? = some d) :
    pyIsSpace d = false := by
  unfold pyStrip at h
  rw [List.head?_reverse] at h
  -- the last element of the twice-processed list is the head of `s.dropWhile`
  have hsplit := List.takeWhile_append_dropWhile pyIsSpace (s.dropWhile pyIsSpace).reverse
  have h2 : ((s.dropWhile pyIsSpace).reverse).getLast? = some d := by
    rw [← hsplit, List.getLast?_append, h]
    rfl
  rw [List.getLast?_reverse] at h2
  exact head?_dropWhile_not h2

theorem pyStrip_last {s : Str} {d : Char} (h : (pyStrip s).getLast? = some d) :
    pyIsSpace d = false := by
  unfold pyStrip at h
  rw [List.getLast?_reverse] at h
  exact head?_dropWhile_not h

theorem dropWhile_eq_self_of_head {p : Char → Bool} {s : Str}
    (h : ∀ d, s.head? = some d → p d = false) : s.dropWhile p = s := by
  cases s with
  | nil => rfl
  | cons c cs =>
    rw [List.dropWhile_cons]
    have := h c rfl
    simp [this]

theorem pyStrip_eq_self {s : Str}
    (hh : ∀ d, s.head? = some d → pyIsSpace d = false)
    (hl : ∀ d, s.getLast? = some d → pyIsSpace d = false) : pyStrip s = s := by
  unfold pyStrip
  rw [dropWhile_eq_self_of_head hh]
  rw [dropWhile_eq_self_of_head (fun d hd => hl d (by rwa [List.getLast?_eq_head?_reverse]))]
  exact List.reverse_reverse s

/-- `collapseAux` is the identity on strings with no adjacent whitespace
whose whitespace characters are all the plain space (and, for the in-space
flag, whose head is not whitespace). -/
theorem collapseAux_eq_self {s : Str} (hchain : NoTwoSpaces s)
    (hsp : ∀ c ∈ s, pyIsSpace c = true → c = ' ') :
    collapseAux false s = s ∧
      ((∀ d, s.head? = some d → pyIsSpace d = false) → collapseAux true s = s) := by
  induction s with
  | nil => exact ⟨rfl, fun _ => rfl⟩
  | cons c cs ih =>
    have hchain' : NoTwoSpaces cs := List.Chain'.tail hchain
    have hsp' : ∀ x ∈ cs, pyIsSpace x = true → x = ' ' :=
      fun x hx => hsp x (List.mem_cons_of_mem _ hx)
    rcases ih hchain' hsp' with ⟨ihf, iht⟩
    by_cases hc : pyIsSpace c = true
    · constructor
      · simp only [collapseAux, hc, if_true, Bool.false_eq_true, if_false]
        have hc' : c = ' ' := hsp c (List.mem_cons_self _ _) hc
        rw [hc']
        congr 1
        apply iht
        intro d hd
        cases cs with
        | nil => simp at hd
        | cons e es =>
          simp only [List.head?_cons, Option.some_inj] at hd
          subst hd
          have := List.chain'_cons.mp hchain
          by_contra hcon
          exact this.1 ⟨hc, by simpa using hcon⟩
      · intro hhead
        have := hhead c rfl
        simp [hc] at this
    · constructor
      · simp only [collapseAux, hc, Bool.false_eq_true, if_false]
        rw [ihf]
      · intro _
        simp only [collapseAux, hc, Bool.false_eq_true, if_false]
        rw [ihf]

theorem map_eq_self_of_mem {f : Char → Char} {s : Str}
    (h : ∀ c ∈ s, f c = c) : s.map f = s := by
  induction s with
  | nil => rfl
  | cons c cs ih =>
    simp only [List.map_cons]
    rw [h c (List.mem_cons_self _ _), ih (fun x hx => h x (List.mem_cons_of_mem _ hx))]

/-- C10 — The name normalizer is a pure function and is idempotent:
`normalize_name (normalize_name x) = normalize_name x` for every input
string `x`. -/
theorem normalize_name_idempotent (x : Str) :
    normalize_name (normalize_name x) = normalize_name x := by
  set t := normalize_name x with ht
  have hmem : ∀ c ∈ t, keepChar c = true ∧ pyLower c = c ∧ (pyIsSpace c = true → c = ' ') :=
    fun c hc => mem_normalize_name (ht ▸ hc)
  have hmap : t.map pyLower = t := map_eq_self_of_mem (fun c hc => (hmem c hc).2.1)
  have hfilter : t.filter keepChar = t :=
    List.filter_eq_self.mpr (fun c hc => (hmem c hc).1)
  have hchain : NoTwoSpaces t := by
    rw [ht]
    unfold normalize_name
    exact noTwoSpaces_pyStrip (noTwoSpaces_collapseAux false _)
  have hcollapse : collapseSpaces t = t :=
    (collapseAux_eq_self hchain (fun c hc => (hmem c hc).2.2)).1
  have hstrip : pyStrip t = t := by
    apply pyStrip_eq_self
    · intro d hd
      rw [ht] at hd
      exact pyStrip_head hd
    · intro d hd
      rw [ht] at hd
      exact pyStrip_last hd
  show pyStrip (collapseSpaces ((t.map pyLower).filter keepChar)) = t
  rw [hmap, hfilter, hcollapse, hstrip]

/-! ### Structure of the matching loop -/

theorem auto_match_loop_fst (ctx : MatchCtx) :
    ∀ (l : List M3uChannel) (i : Nat), (auto_match_loop ctx l i).1 = l.map (matchOne ctx) := by
  intro l
  induction l with
  | nil => intro i; rfl
  | cons ch rest ih =>
    intro i
    simp only [auto_match_loop, List.map_cons]
    rw [ih]

theorem mem_auto_match_channels {ratio : Str → Str → Nat} {m3u_channels : List M3uChannel}
    {xmltv_channels : List XmltvChannel} {threshold : Nat} {preserve_existing : Bool}
    {r : ProcessedChannel}
    (hr : r ∈ auto_match_channels ratio m3u_channels xmltv_channels threshold preserve_existing) :
    xmltv_channels ≠ [] ∧
      ∃ ch ∈ m3u_channels,
        r = matchOne (matchCtx ratio xmltv_channels threshold preserve_existing) ch := by
  unfold auto_match_channels auto_match_run at hr
  split at hr
  · simp at hr
  · next hne =>
    rw [auto_match_loop_fst] at hr
    rcases List.mem_map.mp hr with ⟨ch, hch, heq⟩
    exact ⟨hne, ch, hch, heq.symm⟩

theorem matchOne_m3u_data (ctx : MatchCtx) (ch : M3uChannel) :
    (matchOne ctx ch).m3u_data = ch := rfl

/-- Rule 1: identifier continuity hit. -/
theorem matchOne_id_hit (ctx : MatchCtx) (ch : M3uChannel) (gc : XmltvChannel)
    (hp : ctx.preserve_existing = true)
    (hne : pyStrip ch.tvg_id ≠ [])
    (hid : ctx.byId (pyStrip ch.tvg_id) = some gc) :
    matchOne ctx ch =
      { m3u_data := ch, xmltv_match := some gc, score := 100,
        selected := decide (ctx.threshold ≤ 100) } := by
  have hcond : ctx.preserve_existing = true ∧ pyStrip ch.tvg_id ≠ [] ∧
      (ctx.byId (pyStrip ch.tvg_id)).isSome = true := ⟨hp, hne, by rw [hid]; rfl⟩
  unfold matchOne
  simp only [if_pos hcond]
  rw [hid]

/-- Rule 2: exact normalized-name hit when rule 1 does not apply. -/
theorem matchOne_name_hit (ctx : MatchCtx) (ch : M3uChannel) (gc : XmltvChannel)
    (hnot : ¬(ctx.preserve_existing = true ∧ pyStrip ch.tvg_id ≠ [] ∧
      (ctx.byId (pyStrip ch.tvg_id)).isSome))
    (hname : ctx.byName (normalize_name ch.name) = some gc) :
    matchOne ctx ch =
      { m3u_data := ch, xmltv_match := some gc, score := 100,
        selected := decide (ctx.threshold ≤ 100) } := by
  have hnot' : ¬(ctx.preserve_existing = true ∧ pyStrip ch.tvg_id ≠ [] ∧
      (ctx.byId (pyStrip ch.tvg_id)).isSome = true) := by
    intro hc
    exact hnot ⟨hc.1, hc.2.1, hc.2.2⟩
  unfold matchOne
  simp only [if_neg hnot', hname]

/-- C1 — For every playlist entry, if the "prefer identifier continuity" flag
is true and the entry's identifier hint (its `tvg-id` value, as the engine
reads it: stripped of surrounding whitespace) is non-empty and present in the
identifier index, then the MatchResult produced by the matching engine
associates that entry with exactly the channel stored under that identifier
and its score is exactly 100, regardless of any name similarity to other
channels. -/
theorem auto_match_identifier_priority
    (ratio : Str → Str → Nat) (m3u_channels : List M3uChannel)
    (xmltv_channels : List XmltvChannel) (threshold : Nat)
    (r : ProcessedChannel) (gc : XmltvChannel)
    (hr : r ∈ auto_match_channels ratio m3u_channels xmltv_channels threshold true)
    (hne : pyStrip r.m3u_data.tvg_id ≠ [])
    (hid : channels_by_id xmltv_channels (pyStrip r.m3u_data.tvg_id) = some gc) :
    r.xmltv_match = some gc ∧ r.score = 100 := by
  rcases mem_auto_match_channels hr with ⟨-, ch, -, heq⟩
  have hdata : r.m3u_data = ch := by rw [heq]; exact matchOne_m3u_data _ _
  rw [hdata] at hne hid
  rw [heq, matchOne_id_hit (matchCtx ratio xmltv_channels threshold true) ch gc rfl hne hid]
  exact ⟨rfl, rfl⟩

theorem auto_match_identifier_priority_witness :
    (⟨sampleM3uId, some sampleGuide, 100, true⟩ : ProcessedChannel).xmltv_match =
        some sampleGuide ∧
      (⟨sampleM3uId, some sampleGuide, 100, true⟩ : ProcessedChannel).score = 100 :=
  auto_match_identifier_priority sampleRatio [sampleM3uId] [sampleGuide] 70
    ⟨sampleM3uId, some sampleGuide, 100, true⟩ sampleGuide (by decide) (by decide) (by decide)

/-- C2 counterexample — the claim "matching against an empty guide catalog
yields a result list of the same length as the playlist catalog" is false:
with a one-entry playlist and an empty guide catalog the engine
short-circuits and returns the empty list (length 0, not 1). -/
theorem auto_match_empty_guide_counterexample :
    ¬((auto_match_channels sampleRatio [sampleM3uId] [] 70 true).length =
      [sampleM3uId].length) := by decide

/-- C2 (amended) — For every playlist catalog, matching against an empty
guide catalog short-circuits and yields the empty result list (no per-entry
records at all, rather than one unassociated record per entry). -/
theorem auto_match_empty_guide (ratio : Str → Str → Nat) (m3u_channels : List M3uChannel)
    (threshold : Nat) (preserve_existing : Bool) :
    auto_match_channels ratio m3u_channels [] threshold preserve_existing = [] := rfl

/-- C3 — For every playlist entry to which the identifier-continuity rule
does not apply, if the normalized form of the entry's display name exactly
equals a key of the normalized-name index, the MatchResult associates the
entry with the GuideChannel stored under that key and its score is exactly
100. -/
theorem auto_match_exact_name
    (ratio : Str → Str → Nat) (m3u_channels : List M3uChannel)
    (xmltv_channels : List XmltvChannel) (threshold : Nat) (preserve_existing : Bool)
    (r : ProcessedChannel) (gc : XmltvChannel)
    (hr : r ∈ auto_match_channels ratio m3u_channels xmltv_channels threshold
      preserve_existing)
    (hnot : ¬(preserve_existing = true ∧ pyStrip r.m3u_data.tvg_id ≠ [] ∧
      (channels_by_id xmltv_channels (pyStrip r.m3u_data.tvg_id)).isSome))
    (hname : channels_by_display_name xmltv_channels (normalize_name r.m3u_data.name) =
      some gc) :
    r.xmltv_match = some gc ∧ r.score = 100 := by
  rcases mem_auto_match_channels hr with ⟨-, ch, -, heq⟩
  have hdata : r.m3u_data = ch := by rw [heq]; exact matchOne_m3u_data _ _
  rw [hdata] at hnot hname
  rw [heq, matchOne_name_hit (matchCtx ratio xmltv_channels threshold preserve_existing)
    ch gc hnot hname]
  exact ⟨rfl, rfl⟩

theorem auto_match_exact_name_witness :
    (⟨sampleM3uNoId, some sampleGuide, 100, true⟩ : ProcessedChannel).xmltv_match =
        some sampleGuide ∧
      (⟨sampleM3uNoId, some sampleGuide, 100, true⟩ : ProcessedChannel).score = 100 :=
  auto_match_exact_name sampleRatio [sampleM3uNoId] [sampleGuide] 70 true
    ⟨sampleM3uNoId, some sampleGuide, 100, true⟩ sampleGuide (by decide)
    (by decide) (by decide)

/-! ### Properties of the fuzzy search (`extractOne`) -/

theorem extractStep_isSome (ratio : Str → Str → Nat) (query : Str)
    (best : Option (Str × Nat)) (c : Str) : (extractStep ratio query best c).isSome := by
  rcases best with _ | ⟨bn, bs⟩
  · rfl
  · show (if bs < ratio query c then some (c, ratio query c) else some (bn, bs)).isSome = true
    split <;> rfl

theorem foldl_extractStep_isSome (ratio : Str → Str → Nat) (query : Str) :
    ∀ (l : List Str) (acc : Option (Str × Nat)), acc.isSome = true →
      (l.foldl (extractStep ratio query) acc).isSome = true := by
  intro l
  induction l with
  | nil => intro acc h; exact h
  | cons c cs ih =>
    intro acc _
    exact ih _ (extractStep_isSome ratio query acc c)

/-- `extractOne` returns a result whenever the choice list is non-empty. -/
theorem extractOne_isSome (ratio : Str → Str → Nat) (query : Str) {choices : List Str}
    (h : choices ≠ []) : (extractOne ratio query choices).isSome = true := by
  rcases choices with _ | ⟨c, cs⟩
  · exact absurd rfl h
  · exact foldl_extractStep_isSome ratio query cs _ (extractStep_isSome ratio query none c)

/-- Fold invariant: a result of the scan either is the starting accumulator
or names a scanned choice together with its ratio score. -/
theorem foldl_extractStep_spec (ratio : Str → Str → Nat) (query : Str) :
    ∀ (l : List Str) (acc : Option (Str × Nat)) {n : Str} {s : Nat},
      l.foldl (extractStep ratio query) acc = some (n, s) →
      acc = some (n, s) ∨ (n ∈ l ∧ s = ratio query n) := by
  intro l
  induction l with
  | nil => intro acc n s h; exact Or.inl h
  | cons c cs ih =>
    intro acc n s h
    rcases ih _ h with h' | h'
    · rcases acc with _ | ⟨bn, bs⟩
      · simp only [extractStep, Option.some_inj, Prod.mk.injEq] at h'
        rcases h' with ⟨hc, hs⟩
        subst hc
        exact Or.inr ⟨List.mem_cons_self _ _, hs.symm⟩
      · have h'' : (if bs < ratio query c then some (c, ratio query c) else
            some (bn, bs)) = some (n, s) := h'
        split at h''
        · simp only [Option.some_inj, Prod.mk.injEq] at h''
          rcases h'' with ⟨hc, hs⟩
          subst hc
          exact Or.inr ⟨List.mem_cons_self _ _, hs.symm⟩
        · exact Or.inl h''
    · exact Or.inr ⟨List.mem_cons_of_mem _ h'.1, h'.2⟩

/-- The winner of `extractOne` is one of the choices and its score is the
scorer's value on it. -/
theorem extractOne_mem (ratio : Str → Str → Nat) (query : Str) {choices : List Str}
    {n : Str} {s : Nat} (h : extractOne ratio query choices = some (n, s)) :
    n ∈ choices ∧ s = ratio query n := by
  rcases foldl_extractStep_spec ratio query choices none h with h' | h'
  · exact absurd h' (by simp)
  · exact h'

/-! ### Properties of the candidate pool -/

theorem mem_insertNew {l : List Str} {x y : Str} :
    y ∈ insertNew l x ↔ y ∈ l ∨ y = x := by
  unfold insertNew
  split
  · next hx =>
    constructor
    · exact Or.inl
    · intro h; rcases h with h | h
      · exact h
      · exact h ▸ hx
  · simp [or_comm, eq_comm]

theorem mem_foldl_insertNew {tl : List Str} :
    ∀ {cand : List Str} {y : Str}, y ∈ tl.foldl insertNew cand ↔ y ∈ cand ∨ y ∈ tl := by
  induction tl with
  | nil => simp
  | cons t ts ih =>
    intro cand y
    simp only [List.foldl_cons]
    rw [ih, mem_insertNew]
    simp only [List.mem_cons]
    tauto

/-- Membership in the candidate-set fold: an element is there iff some long
token of the name indexes it (starting from an arbitrary seed). -/
theorem mem_candidate_fold (tokIdx : Str → List Str) :
    ∀ (toks : List Str) (cand : List Str) (y : Str),
      y ∈ toks.foldl
          (fun cand tok => if 1 < tok.length then (tokIdx tok).foldl insertNew cand else cand)
          cand ↔
        y ∈ cand ∨ ∃ tok ∈ toks, 1 < tok.length ∧ y ∈ tokIdx tok := by
  intro toks
  induction toks with
  | nil => simp
  | cons t ts ih =>
    intro cand y
    simp only [List.foldl_cons]
    rw [ih]
    by_cases ht : 1 < t.length
    · rw [if_pos ht, mem_foldl_insertNew]
      simp only [List.mem_cons]
      constructor
      · rintro ((h | h) | h)
        · exact Or.inl h
        · exact Or.inr ⟨t, Or.inl rfl, ht, h⟩
        · rcases h with ⟨tok, htok, hlen, hy⟩
          exact Or.inr ⟨tok, Or.inr htok, hlen, hy⟩
      · rintro (h | ⟨tok, htok, hlen, hy⟩)
        · exact Or.inl (Or.inl h)
        · rcases htok with h | h
          · exact Or.inl (Or.inr (h ▸ hy))
          · exact Or.inr ⟨tok, h, hlen, hy⟩
    · rw [if_neg ht]
      constructor
      · rintro (h | ⟨tok, htok, hlen, hy⟩)
        · exact Or.inl h
        · exact Or.inr ⟨tok, List.mem_cons_of_mem _ htok, hlen, hy⟩
      · rintro (h | ⟨tok, htok, hlen, hy⟩)
        · exact Or.inl h
        · rcases List.mem_cons.mp htok with h | h
          · exact absurd (h ▸ hlen) ht
          · exact Or.inr ⟨tok, h, hlen, hy⟩

theorem mem_candidateNames {tokIdx : Str → List Str} {normName : Str} {y : Str} :
    y ∈ candidateNames tokIdx normName ↔
      ∃ tok ∈ pySplit normName, 1 < tok.length ∧ y ∈ tokIdx tok := by
  unfold candidateNames
  rw [mem_candidate_fold]
  simp

/-- C5 — For every playlist entry that reaches the fuzzy-matching rule, the
candidate pool is the union of the token-index sets for every token of
length > 1 in the entry's normalized display name; if that union is
non-empty the pool is exactly that union of primary display names, otherwise
the pool is the full set of every GuideChannel's primary display name. -/
theorem fuzzyChoices_pool (tokIdx : Str → List Str) (all_names : List Str)
    (normName : Str) :
    ((∃ y tok, tok ∈ pySplit normName ∧ 1 < tok.length ∧ y ∈ tokIdx tok) →
      ∀ x, x ∈ fuzzyChoices tokIdx all_names normName ↔
        ∃ tok ∈ pySplit normName, 1 < tok.length ∧ x ∈ tokIdx tok) ∧
    ((¬∃ y tok, tok ∈ pySplit normName ∧ 1 < tok.length ∧ y ∈ tokIdx tok) →
      fuzzyChoices tokIdx all_names normName = all_names) := by
  constructor
  · intro hne x
    have hcand : candidateNames tokIdx normName ≠ [] := by
      rcases hne with ⟨y, tok, htok, hlen, hy⟩
      intro hnil
      have : y ∈ candidateNames tokIdx normName := mem_candidateNames.mpr ⟨tok, htok, hlen, hy⟩
      rw [hnil] at this
      exact absurd this (List.not_mem_nil y)
    unfold fuzzyChoices
    rw [if_neg hcand]
    exact mem_candidateNames
  · intro hnone
    have hcand : candidateNames tokIdx normName = [] := by
      rcases hc : candidateNames tokIdx normName with _ | ⟨y, ys⟩
      · rfl
      · exfalso
        apply hnone
        have hy : y ∈ candidateNames tokIdx normName := by rw [hc]; exact List.mem_cons_self _ _
        rcases mem_candidateNames.mp hy with ⟨tok, htok, hlen, hmem⟩
        exact ⟨y, tok, htok, hlen, hmem⟩
    unfold fuzzyChoices
    rw [if_pos hcand]

theorem fuzzyChoices_pool_witness :
    ("HBO East HD".toList ∈
        fuzzyChoices (token_index [sampleGuide]) [sampleGuide.display_name]
          (normalize_name "HBO East".toList) ↔
      ∃ tok ∈ pySplit (normalize_name "HBO East".toList), 1 < tok.length ∧
        "HBO East HD".toList ∈ token_index [sampleGuide] tok) ∧
    fuzzyChoices (token_index [sampleGuide]) [sampleGuide.display_name]
        (normalize_name "zz".toList) = [sampleGuide.display_name] :=
  ⟨(fuzzyChoices_pool (token_index [sampleGuide]) [sampleGuide.display_name]
      (normalize_name "HBO East".toList)).1
      ⟨ "HBO East HD".toList, "hbo".toList, by decide, by decide, by decide⟩
      ("HBO East HD".toList),
    (fuzzyChoices_pool (token_index [sampleGuide]) [sampleGuide.display_name]
      (normalize_name "zz".toList)).2
      (by
        rintro ⟨y, tok, htok, hlen, hy⟩
        have hsplit : pySplit (normalize_name "zz".toList) = ["zz".toList] := by decide
        rw [hsplit] at htok
        have htok' : tok = "zz".toList := by simpa using htok
        subst htok'
        have hidx : token_index [sampleGuide] "zz".toList = [] := by decide
        rw [hidx] at hy
        exact absurd hy (List.not_mem_nil y))⟩

/-! ### Per-entry score and association facts -/

theorem matchOne_selected_eq (ctx : MatchCtx) (ch : M3uChannel) :
    (matchOne ctx ch).selected = decide (ctx.threshold ≤ (matchOne ctx ch).score) := rfl

theorem matchOne_score_le (ctx : MatchCtx) (ch : M3uChannel)
    (hratio : ∀ a b, ctx.ratio a b ≤ 100) : (matchOne ctx ch).score ≤ 100 := by
  show (if ctx.preserve_existing = true ∧ pyStrip ch.tvg_id ≠ [] ∧
        (ctx.byId (pyStrip ch.tvg_id)).isSome then
      ((ctx.byId (pyStrip ch.tvg_id), 100) : Option XmltvChannel × Nat)
    else
      match ctx.byName (normalize_name ch.name) with
      | some gc => (some gc, 100)
      | none =>
        match extractOne ctx.ratio ch.name
            (fuzzyChoices ctx.tokIdx ctx.all_names (normalize_name ch.name)) with
        | some (matched_name, sc) => (ctx.byName (normalize_name matched_name), sc)
        | none => (none, 0)).2 ≤ 100
  split
  · exact le_refl 100
  · split
    · exact le_refl 100
    · split
      · next matched_name sc heq =>
        have := extractOne_mem ctx.ratio ch.name heq
        show sc ≤ 100
        rw [this.2]
        exact hratio _ _
      · exact Nat.zero_le 100

theorem dictInsert_isSome_pres {α : Type} {m : Str → Option α} {q : Str} (k : Str) (v : α)
    (h : (m q).isSome = true) : ((dictInsert m k v) q).isSome = true := by
  unfold dictInsert
  split
  · rfl
  · exact h

theorem byName_fold_isSome_pres :
    ∀ (chs : List XmltvChannel) (m : Str → Option XmltvChannel) (q : Str),
      (m q).isSome = true →
      ((chs.foldl (fun m ch => dictInsert m (normalize_name ch.display_name) ch) m) q).isSome
        = true := by
  intro chs
  induction chs with
  | nil => intro m q h; exact h
  | cons ch rest ih =>
    intro m q h
    exact ih _ q (dictInsert_isSome_pres _ _ h)

theorem channels_by_display_name_isSome :
    ∀ (chs : List XmltvChannel) {gc : XmltvChannel}, gc ∈ chs →
      (channels_by_display_name chs (normalize_name gc.display_name)).isSome = true := by
  have key : ∀ (chs : List XmltvChannel) (m : Str → Option XmltvChannel)
      {gc : XmltvChannel}, gc ∈ chs →
      ((chs.foldl (fun m ch => dictInsert m (normalize_name ch.display_name) ch) m)
        (normalize_name gc.display_name)).isSome = true := by
    intro chs
    induction chs with
    | nil => intro m gc h; exact absurd h (List.not_mem_nil gc)
    | cons ch rest ih =>
      intro m gc h
      rcases List.mem_cons.mp h with h | h
      · subst h
        rw [List.foldl_cons]
        apply byName_fold_isSome_pres
        show ((dictInsert m (normalize_name gc.display_name) gc)
          (normalize_name gc.display_name)).isSome = true
        unfold dictInsert
        rw [if_pos rfl]
        rfl
      · exact ih _ h
  intro chs gc h
  exact key chs _ h

theorem mem_tokenAdd {m : Str → List Str} {tok d q x : Str}
    (h : x ∈ tokenAdd m tok d q) : x ∈ m q ∨ x = d := by
  unfold tokenAdd at h
  split at h
  · exact (mem_insertNew.mp h).imp id id
  · exact Or.inl h

theorem mem_token_fold {d : Str} :
    ∀ (toks : List Str) (m : Str → List Str) (q x : Str),
      x ∈ (toks.foldl (fun m' tok => if 1 < tok.length then tokenAdd m' tok d else m') m) q →
      x ∈ m q ∨ x = d := by
  intro toks
  induction toks with
  | nil => intro m q x h; exact Or.inl h
  | cons t ts ih =>
    intro m q x h
    rcases ih _ q x h with h' | h'
    · have h'' : x ∈ (if 1 < t.length then tokenAdd m t d else m) q := h'
      by_cases ht : 1 < t.length
      · rw [if_pos ht] at h''
        exact mem_tokenAdd h''
      · rw [if_neg ht] at h''
        exact Or.inl h''
    · exact Or.inr h'

theorem mem_token_index :
    ∀ (chs : List XmltvChannel) (tok x : Str), x ∈ token_index chs tok →
      ∃ ch ∈ chs, x = ch.display_name := by
  have key : ∀ (chs : List XmltvChannel) (m : Str → List Str) (tok x : Str),
      x ∈ (chs.foldl
        (fun m ch =>
          (pySplit (normalize_name ch.display_name)).foldl
            (fun m' t => if 1 < t.length then tokenAdd m' t ch.display_name else m') m)
        m) tok →
      x ∈ m tok ∨ ∃ ch ∈ chs, x = ch.display_name := by
    intro chs
    induction chs with
    | nil => intro m tok x h; exact Or.inl h
    | cons ch rest ih =>
      intro m tok x h
      rcases ih _ tok x h with h' | h'
      · rcases mem_token_fold _ _ _ _ h' with h'' | h''
        · exact Or.inl h''
        · exact Or.inr ⟨ch, List.mem_cons_self _ _, h''⟩
      · rcases h' with ⟨c, hc, hx⟩
        exact Or.inr ⟨c, List.mem_cons_of_mem _ hc, hx⟩
  intro chs tok x h
  rcases key chs _ tok x h with h' | h'
  · exact absurd h' (List.not_mem_nil x)
  · exact h'

theorem mem_fuzzyChoices_display {chs : List XmltvChannel} {nm mn : Str}
    (h : mn ∈ fuzzyChoices (token_index chs) (chs.map (fun c => c.display_name)) nm) :
    ∃ gc ∈ chs, mn = gc.display_name := by
  unfold fuzzyChoices at h
  split at h
  · rcases List.mem_map.mp h with ⟨gc, hgc, he⟩
    exact ⟨gc, hgc, he.symm⟩
  · rcases mem_candidateNames.mp h with ⟨tok, -, -, hmem⟩
    exact mem_token_index chs tok mn hmem

theorem fuzzyChoices_ne_nil {tokIdx : Str → List Str} {all_names : List Str} {nm : Str}
    (h : all_names ≠ []) : fuzzyChoices tokIdx all_names nm ≠ [] := by
  unfold fuzzyChoices
  split
  · exact h
  · next hc => exact hc

/-- C4 — For every MatchResult produced by the matching engine, the
similarity score satisfies `0 ≤ score ≤ 100` (given the spec's promise that
the external scorer is a 0-100 ratio), and at creation the selected flag
equals `score ≥ threshold`. -/
theorem auto_match_score_bounds
    (ratio : Str → Str → Nat) (m3u_channels : List M3uChannel)
    (xmltv_channels : List XmltvChannel) (threshold : Nat) (preserve_existing : Bool)
    (hratio : ∀ a b, ratio a b ≤ 100) (r : ProcessedChannel)
    (hr : r ∈ auto_match_channels ratio m3u_channels xmltv_channels threshold
      preserve_existing) :
    (0 ≤ r.score ∧ r.score ≤ 100) ∧ r.selected = decide (threshold ≤ r.score) := by
  rcases mem_auto_match_channels hr with ⟨-, ch, -, heq⟩
  rw [heq]
  refine ⟨⟨Nat.zero_le _, ?_⟩, ?_⟩
  · exact matchOne_score_le _ ch hratio
  · exact matchOne_selected_eq _ ch

theorem auto_match_score_bounds_witness :
    (0 ≤ (⟨sampleM3uId, some sampleGuide, 100, true⟩ : ProcessedChannel).score ∧
      (⟨sampleM3uId, some sampleGuide, 100, true⟩ : ProcessedChannel).score ≤ 100) ∧
    (⟨sampleM3uId, some sampleGuide, 100, true⟩ : ProcessedChannel).selected =
      decide (70 ≤ (⟨sampleM3uId, some sampleGuide, 100, true⟩ : ProcessedChannel).score) :=
  auto_match_score_bounds sampleRatio [sampleM3uId] [sampleGuide] 70 true
    (fun a b => by unfold sampleRatio; split <;> omega)
    ⟨sampleM3uId, some sampleGuide, 100, true⟩ (by decide)

/-- C9 — Implicit: for every playlist entry, when the guide catalog is
non-empty, the MatchResult produced by the matching engine always carries a
non-absent association — even when the similarity score is 0 or below the
selection threshold — because the fuzzy candidate pool is never empty and
the winning candidate name is always a key of the normalized-name index; an
absent association could only arise through the empty-guide-catalog
short-circuit, which produces no result records at all. -/
theorem auto_match_always_associated
    (ratio : Str → Str → Nat) (m3u_channels : List M3uChannel)
    (xmltv_channels : List XmltvChannel) (threshold : Nat) (preserve_existing : Bool)
    (r : ProcessedChannel)
    (hr : r ∈ auto_match_channels ratio m3u_channels xmltv_channels threshold
      preserve_existing) :
    r.xmltv_match.isSome = true := by
  rcases mem_auto_match_channels hr with ⟨hxne, ch, -, heq⟩
  rw [heq]
  show (if (matchCtx ratio xmltv_channels threshold preserve_existing).preserve_existing
          = true ∧
        pyStrip ch.tvg_id ≠ [] ∧
        ((matchCtx ratio xmltv_channels threshold preserve_existing).byId
          (pyStrip ch.tvg_id)).isSome then
      (((matchCtx ratio xmltv_channels threshold preserve_existing).byId
          (pyStrip ch.tvg_id), 100) : Option XmltvChannel × Nat)
    else
      match (matchCtx ratio xmltv_channels threshold preserve_existing).byName
          (normalize_name ch.name) with
      | some gc => (some gc, 100)
      | none =>
        match extractOne
            (matchCtx ratio xmltv_channels threshold preserve_existing).ratio ch.name
            (fuzzyChoices (matchCtx ratio xmltv_channels threshold preserve_existing).tokIdx
              (matchCtx ratio xmltv_channels threshold preserve_existing).all_names
              (normalize_name ch.name)) with
        | some (matched_name, sc) =>
          ((matchCtx ratio xmltv_channels threshold preserve_existing).byName
            (normalize_name matched_name), sc)
        | none => (none, 0)).1.isSome = true
  split
  · next hcond => exact hcond.2.2
  · split
    · rfl
    · split
      · next matched_name sc heq2 =>
        show ((matchCtx ratio xmltv_channels threshold preserve_existing).byName
          (normalize_name matched_name)).isSome = true
        have hmem := (extractOne_mem _ ch.name heq2).1
        rcases mem_fuzzyChoices_display hmem with ⟨gc, hgc, he⟩
        rw [he]
        exact channels_by_display_name_isSome xmltv_channels hgc
      · next heq2 =>
        exfalso
        have hne : fuzzyChoices
            (matchCtx ratio xmltv_channels threshold preserve_existing).tokIdx
            (matchCtx ratio xmltv_channels threshold preserve_existing).all_names
            (normalize_name ch.name) ≠ [] := by
          apply fuzzyChoices_ne_nil
          show xmltv_channels.map (fun c => c.display_name) ≠ []
          intro hmap
          exact hxne (List.map_eq_nil_iff.mp hmap)
        have := extractOne_isSome
          (matchCtx ratio xmltv_channels threshold preserve_existing).ratio ch.name hne
        rw [heq2] at this
        exact absurd this (by simp)

theorem auto_match_always_associated_witness :
    ((⟨sampleM3uId, some sampleGuide, 100, true⟩ : ProcessedChannel).xmltv_match).isSome
      = true :=
  auto_match_always_associated sampleRatio [sampleM3uId] [sampleGuide] 70 true
    ⟨sampleM3uId, some sampleGuide, 100, true⟩ (by decide)

/-! ### The progress-callback trace (claim C8) -/

theorem flatMap_map_succ {β : Type} (f : Nat → List β) (l : List Nat) :
    (l.map Nat.succ).flatMap f = l.flatMap (fun j => f (j + 1)) := by
  induction l with
  | nil => rfl
  | cons a as ih => simp only [List.map_cons, List.flatMap_cons, ih]

theorem auto_match_loop_snd (ctx : MatchCtx) :
    ∀ (l : List M3uChannel) (i : Nat),
      (auto_match_loop ctx l i).2 =
        (List.range l.length).flatMap
          (fun j => [MatchEvent.progress (i + j + 1), MatchEvent.processed (i + j)]) := by
  intro l
  induction l with
  | nil => intro i; rfl
  | cons ch rest ih =>
    intro i
    have hfun :
        (fun j => [MatchEvent.progress (i + 1 + j + 1), MatchEvent.processed (i + 1 + j)]) =
          (fun j =>
            [MatchEvent.progress (i + (j + 1) + 1), MatchEvent.processed (i + (j + 1))]) := by
      funext j
      have h1 : i + 1 + j = i + (j + 1) := by omega
      rw [h1]
    simp only [auto_match_loop, List.length_cons, List.range_succ_eq_map,
      List.flatMap_cons, flatMap_map_succ]
    rw [ih (i + 1), hfun]
    simp

theorem filterMap_progress_trace :
    ∀ (l : List Nat),
      ((l.flatMap
          (fun j => [MatchEvent.progress (j + 1), MatchEvent.processed j])).filterMap
        progressArg) = l.map (fun j => j + 1) := by
  intro l
  induction l with
  | nil => rfl
  | cons a as ih =>
    simp only [List.flatMap_cons, List.filterMap_append, List.map_cons, ih]
    rfl

/-- C8 counterexample — the claim says the progress callback is invoked
after each playlist entry is processed; in the code it is invoked at the top
of the loop iteration, before the entry is processed.  Concretely, for a
one-entry playlist there is no decomposition of the event trace in which the
callback invocation (`progress 1`) comes after the completion of entry 0's
processing. -/
theorem auto_match_progress_counterexample :
    ¬∃ l₁ l₂, auto_match_events sampleRatio [sampleM3uId] [sampleGuide] 70 true =
        l₁ ++ MatchEvent.processed 0 :: l₂ ∧ MatchEvent.progress 1 ∈ l₂ := by
  have hev : auto_match_events sampleRatio [sampleM3uId] [sampleGuide] 70 true =
      [MatchEvent.progress 1, MatchEvent.processed 0] := by decide
  rintro ⟨l₁, l₂, heq, hmem⟩
  rw [hev] at heq
  rcases l₁ with _ | ⟨a, l₁⟩
  · simp only [List.nil_append, List.cons.injEq] at heq
    exact absurd heq.1 (by decide)
  · rcases l₁ with _ | ⟨b, l₁⟩
    · simp only [List.cons_append, List.nil_append, List.cons.injEq] at heq
      rcases heq with ⟨-, -, hl⟩
      rw [← hl] at hmem
      exact absurd hmem (List.not_mem_nil _)
    · simp only [List.cons_append, List.cons.injEq] at heq
      rcases heq with ⟨-, -, hl⟩
      exact absurd hl (by simp)

/-- C8 (amended) — For every playlist catalog and non-empty guide catalog, a
supplied progress callback is invoked exactly once per playlist entry, in
input order, with the 1-based count, at the start of processing each entry —
immediately before that entry is matched, not after: the event trace is
exactly `progress 1, processed 0, progress 2, processed 1, …`, and the
sequence of callback arguments is exactly `1, …, n` in order. -/
theorem auto_match_progress_calls
    (ratio : Str → Str → Nat) (m3u_channels : List M3uChannel)
    (xmltv_channels : List XmltvChannel) (threshold : Nat) (preserve_existing : Bool)
    (h : xmltv_channels ≠ []) :
    auto_match_events ratio m3u_channels xmltv_channels threshold preserve_existing =
        (List.range m3u_channels.length).flatMap
          (fun j => [MatchEvent.progress (j + 1), MatchEvent.processed j]) ∧
      (auto_match_events ratio m3u_channels xmltv_channels threshold
          preserve_existing).filterMap progressArg =
        (List.range m3u_channels.length).map (fun j => j + 1) := by
  have hev : auto_match_events ratio m3u_channels xmltv_channels threshold
      preserve_existing =
        (List.range m3u_channels.length).flatMap
          (fun j => [MatchEvent.progress (j + 1), MatchEvent.processed j]) := by
    unfold auto_match_events auto_match_run
    rw [if_neg h]
    rw [auto_match_loop_snd]
    simp
  refine ⟨hev, ?_⟩
  rw [hev, filterMap_progress_trace]

theorem auto_match_progress_calls_witness :
    auto_match_events sampleRatio [sampleM3uId] [sampleGuide] 70 true =
        (List.range 1).flatMap
          (fun j => [MatchEvent.progress (j + 1), MatchEvent.processed j]) ∧
      (auto_match_events sampleRatio [sampleM3uId] [sampleGuide] 70 true).filterMap
          progressArg =
        (List.range 1).map (fun j => j + 1) :=
  auto_match_progress_calls sampleRatio [sampleM3uId] [sampleGuide] 70 true (by decide)

/-! ### The descriptor rewrite of `generate_m3u` (claim C6) -/

theorem tvgOpen_eq : tvgOpen = [ 't', 'v', 'g', '-', 'i', 'd', '=', '\"' ] := rfl

theorem extinfHead_eq : extinfHead = [ '#', 'E', 'X', 'T', 'I', 'N', 'F', ':' ] := rfl

theorem takeWhile_all_append {p : Char → Bool} :
    ∀ {u : Str} {w : Char} {z : Str}, (∀ c ∈ u, p c = true) → p w = false →
      List.takeWhile p (u ++ w :: z) = u := by
  intro u
  induction u with
  | nil =>
    intro w z _ hw
    simp [List.takeWhile_cons, hw]
  | cons a u ih =>
    intro w z hu hw
    have ha : p a = true := hu a (List.mem_cons_self _ _)
    simp only [List.cons_append, List.takeWhile_cons, ha, if_true]
    rw [ih (fun c hc => hu c (List.mem_cons_of_mem _ hc)) hw]

theorem dropWhile_all_append {p : Char → Bool} :
    ∀ {u : Str} {w : Char} {z : Str}, (∀ c ∈ u, p c = true) → p w = false →
      List.dropWhile p (u ++ w :: z) = w :: z := by
  intro u
  induction u with
  | nil =>
    intro w z _ hw
    simp [List.dropWhile_cons, hw]
  | cons a u ih =>
    intro w z hu hw
    have ha : p a = true := hu a (List.mem_cons_self _ _)
    simp only [List.cons_append, List.dropWhile_cons, ha, if_true]
    exact ih (fun c hc => hu c (List.mem_cons_of_mem _ hc)) hw

/-- A match at the head decomposes the string. -/
theorem matchTvgAt_some {s v t : Str} (h : matchTvgAt s = some (v, t)) :
    s = tvgOpen ++ v ++ ( '\"' :: t) ∧ '\"' ∉ v := by
  unfold matchTvgAt at h
  split at h
  · next htake =>
    split at h
    · exact absurd h (by simp)
    · next w tail hdrop =>
      simp only [Option.some_inj, Prod.mk.injEq] at h
      rcases h with ⟨hv, ht⟩
      have hw : w = '\"' := by
        have := head?_dropWhile_not (p := fun c => decide (c ≠ '\"'))
          (s := s.drop 8) (d := w) (by rw [hdrop]; rfl)
        simpa using this
      have hsplit : (s.drop 8).takeWhile (fun c => decide (c ≠ '\"')) ++
          (s.drop 8).dropWhile (fun c => decide (c ≠ '\"')) = s.drop 8 :=
        List.takeWhile_append_dropWhile _ _
      constructor
      · have hs : s = s.take 8 ++ s.drop 8 := (List.take_append_drop 8 s).symm
        conv_lhs => rw [hs]
        rw [htake, ← hsplit, hdrop, hv, ← ht, ← hw]
        simp
      · intro hq
        have := List.mem_takeWhile_imp (hv ▸ hq)
        simp at this
  · exact absurd h (by simp)

/-- Conversely, a decomposed occurrence at the head is matched. -/
theorem matchTvgAt_of_shape {v t : Str} (hv : '\"' ∉ v) :
    matchTvgAt (tvgOpen ++ v ++ ( '\"' :: t)) = some (v, t) := by
  have hlen : tvgOpen.length = 8 := rfl
  have h8 : (tvgOpen ++ v ++ ( '\"' :: t)).take 8 = tvgOpen := by
    rw [List.append_assoc, ← hlen]
    exact List.take_left tvgOpen _
  have hdrop8 : (tvgOpen ++ v ++ ( '\"' :: t)).drop 8 = v ++ ( '\"' :: t) := by
    rw [List.append_assoc, ← hlen]
    exact List.drop_left tvgOpen _
  have hall : ∀ c ∈ v, (decide (c ≠ '\"')) = true := by
    intro c hc
    simp only [decide_eq_true_eq]
    intro he
    exact hv (he ▸ hc)
  have hq : (decide ( '\"' ≠ '\"')) = false := by simp
  unfold matchTvgAt
  rw [if_pos h8, hdrop8, dropWhile_all_append hall hq, takeWhile_all_append hall hq]

/-- No match can start at a character other than `t`. -/
theorem matchTvgAt_none_of_ne {c : Char} {cs : Str} (hc : c ≠ 't') :
    matchTvgAt (c :: cs) = none := by
  have hne : (c :: cs).take 8 ≠ tvgOpen := by
    rw [tvgOpen_eq]
    intro h
    have h' : c :: cs.take 7 = [ 't', 'v', 'g', '-', 'i', 'd', '=', '\"' ] := h
    injection h' with h1 _
    exact hc h1
  unfold matchTvgAt
  rw [if_neg hne]

theorem countTvgAux_match {c : Char} {cs v t : Str}
    (h : matchTvgAt (c :: cs) = some (v, t)) :
    countTvgAux (c :: cs) 0 = 1 + countTvgAux cs (7 + v.length + 1) := by
  simp only [countTvgAux]
  rw [h]

theorem countTvgAux_nomatch {c : Char} {cs : Str} (h : matchTvgAt (c :: cs) = none) :
    countTvgAux (c :: cs) 0 = countTvgAux cs 0 := by
  simp only [countTvgAux]
  rw [h]

theorem countTvgAux_skip : ∀ (u z : Str), countTvgAux (u ++ z) u.length = countTvgAux z 0 := by
  intro u
  induction u with
  | nil => intro z; rfl
  | cons a u ih =>
    intro z
    show countTvgAux (a :: (u ++ z)) (u.length + 1) = countTvgAux z 0
    have hstep : countTvgAux (a :: (u ++ z)) (u.length + 1) =
        countTvgAux (u ++ z) u.length := rfl
    rw [hstep]
    exact ih z

theorem attr_shape (v b : Str) : tvgAttr v ++ b = tvgOpen ++ v ++ ( '\"' :: b) := by
  simp [tvgAttr, List.append_assoc]

theorem countTvgAux_no_t {u : Str} (hu : ∀ c ∈ u, c ≠ 't') :
    ∀ z, countTvgAux (u ++ z) 0 = countTvgAux z 0 := by
  induction u with
  | nil => intro z; rfl
  | cons a u ih =>
    intro z
    have hm : matchTvgAt (a :: (u ++ z)) = none :=
      matchTvgAt_none_of_ne (hu a (List.mem_cons_self _ _))
    show countTvgAux (a :: (u ++ z)) 0 = countTvgAux z 0
    rw [countTvgAux_nomatch hm]
    exact ih (fun c hc => hu c (List.mem_cons_of_mem _ hc)) z

theorem countTvgAux_attr {x : Str} (hx : '\"' ∉ x) (z : Str) :
    countTvgAux (tvgAttr x ++ z) 0 = 1 + countTvgAux z 0 := by
  have hm : matchTvgAt (tvgOpen ++ x ++ ( '\"' :: z)) = some (x, z) := matchTvgAt_of_shape hx
  have hcons : tvgOpen ++ x ++ ( '\"' :: z) =
      't' :: ([ 'v', 'g', '-', 'i', 'd', '=', '\"' ] ++ x ++ ( '\"' :: z)) := by
    rw [tvgOpen_eq]
    rfl
  rw [attr_shape, hcons]
  rw [hcons] at hm
  rw [countTvgAux_match hm]
  have hrest : [ 'v', 'g', '-', 'i', 'd', '=', '\"' ] ++ x ++ ( '\"' :: z) =
      ([ 'v', 'g', '-', 'i', 'd', '=', '\"' ] ++ x ++ [ '\"' ]) ++ z := by
    simp [List.append_assoc]
  have hlen : 7 + x.length + 1 =
      ([ 'v', 'g', '-', 'i', 'd', '=', '\"' ] ++ x ++ [ '\"' ]).length := by
    simp [List.length_append]
    omega
  rw [hrest, hlen, countTvgAux_skip]

theorem hasTvgOcc_of_count {s : Str} (h : countTvgAux s 0 ≠ 0) : HasTvgOcc s := by
  induction s with
  | nil => exact absurd rfl h
  | cons c cs ih =>
    rcases hm : matchTvgAt (c :: cs) with _ | ⟨v, t⟩
    · rw [countTvgAux_nomatch hm] at h
      rcases ih h with ⟨a, w, b, hw, heq⟩
      exact ⟨c :: a, w, b, hw, by rw [heq]; rfl⟩
    · rcases matchTvgAt_some hm with ⟨heq, hv⟩
      exact ⟨[], v, t, hv, by rw [heq]; rfl⟩

theorem count_ne_of_hasTvgOcc {s : Str} (h : HasTvgOcc s) : countTvgAux s 0 ≠ 0 := by
  rcases h with ⟨a, v, b, hv, heq⟩
  subst heq
  induction a with
  | nil =>
    show countTvgAux (tvgOpen ++ v ++ ( '\"' :: b)) 0 ≠ 0
    rw [← attr_shape, countTvgAux_attr hv]
    omega
  | cons c a ih =>
    show countTvgAux (c :: (a ++ tvgOpen ++ v ++ ( '\"' :: b))) 0 ≠ 0
    rcases hm : matchTvgAt (c :: (a ++ tvgOpen ++ v ++ ( '\"' :: b))) with _ | ⟨v', t'⟩
    · rw [countTvgAux_nomatch hm]
      exact ih
    · rw [countTvgAux_match hm]
      omega

theorem hasTvgOcc_middle {m : Str} (p t : Str) (h : HasTvgOcc m) :
    HasTvgOcc (p ++ m ++ t) := by
  rcases h with ⟨a, v, b, hv, heq⟩
  refine ⟨p ++ a, v, b ++ t, hv, ?_⟩
  rw [heq]
  simp [List.append_assoc]

/-- A `tvg-id` occurrence in `Q ++ d` with a quote-free `d` lies entirely
within `Q`: the closing quote cannot come from `d`. -/
theorem hasTvgOcc_confine {Q d : Str} (h : HasTvgOcc (Q ++ d)) (hd : '\"' ∉ d) :
    HasTvgOcc Q := by
  rcases h with ⟨a, v, b, hv, heq⟩
  have heq' : Q ++ d = (a ++ (tvgOpen ++ v ++ [ '\"' ])) ++ b := by
    rw [heq]
    simp [List.append_assoc]
  have hlens : Q.length + d.length =
      a.length + (tvgOpen.length + v.length + 1) + b.length := by
    have := congrArg List.length heq'
    simp only [List.length_append, List.length_cons, List.length_nil] at this
    omega
  by_cases hle : a.length + (tvgOpen.length + v.length + 1) ≤ Q.length
  · have hlen2 : (a ++ (tvgOpen ++ v ++ [ '\"' ])).length ≤ Q.length := by
      simp only [List.length_append, List.length_cons, List.length_nil]
      omega
    have htake : Q.take (a ++ (tvgOpen ++ v ++ [ '\"' ])).length =
        a ++ (tvgOpen ++ v ++ [ '\"' ]) := by
      have h1 : (Q ++ d).take (a ++ (tvgOpen ++ v ++ [ '\"' ])).length =
          Q.take (a ++ (tvgOpen ++ v ++ [ '\"' ])).length :=
        List.take_append_of_le_length hlen2
      have h2 : ((a ++ (tvgOpen ++ v ++ [ '\"' ])) ++ b).take
          (a ++ (tvgOpen ++ v ++ [ '\"' ])).length = a ++ (tvgOpen ++ v ++ [ '\"' ]) :=
        List.take_left _ _
      rw [← h1, heq', h2]
    refine ⟨a, v, Q.drop (a ++ (tvgOpen ++ v ++ [ '\"' ])).length, hv, ?_⟩
    conv_lhs => rw [← List.take_append_drop (a ++ (tvgOpen ++ v ++ [ '\"' ])).length Q]
    rw [htake]
    simp [List.append_assoc]
  · exfalso
    push_neg at hle
    have hQi : Q.length ≤ a.length + (tvgOpen.length + v.length) := by omega
    have hi1 : a.length + (tvgOpen.length + v.length) < (Q ++ d).length := by
      simp only [List.length_append]
      omega
    have hvq : (Q ++ d).get ⟨a.length + (tvgOpen.length + v.length), hi1⟩ = '\"' := by
      rw [List.get_eq_getElem]
      rw [List.getElem_of_eq heq' hi1]
      have hsplit : (a ++ (tvgOpen ++ v ++ [ '\"' ])) ++ b =
          (a ++ (tvgOpen ++ v)) ++ ( '\"' :: b) := by
        simp [List.append_assoc]
      rw [List.getElem_of_eq hsplit
        (by simp only [List.length_append, List.length_cons, List.length_nil]; omega)]
      have hidx : a.length + (tvgOpen.length + v.length) -
          (a ++ (tvgOpen ++ v)).length = 0 := by
        simp only [List.length_append]
        omega
      rw [List.getElem_append_right (by simp only [List.length_append]; omega)]
      simp [hidx]
    have hmem : (Q ++ d).get ⟨a.length + (tvgOpen.length + v.length), hi1⟩ ∈ d := by
      rw [List.get_eq_getElem]
      rw [List.getElem_append_right hQi]
      exact List.getElem_mem _
    rw [hvq] at hmem
    exact hd hmem

theorem replaceTvgAux_id (xid : Str) :
    ∀ (s : Str), countTvgAux s 0 = 0 → replaceTvgAux xid s 0 = s := by
  intro s
  induction s with
  | nil => intro h; rfl
  | cons c cs ih =>
    intro h
    rcases hm : matchTvgAt (c :: cs) with _ | ⟨v, t⟩
    · have hcount : countTvgAux cs 0 = 0 := by rw [← countTvgAux_nomatch hm]; exact h
      show replaceTvgAux xid (c :: cs) 0 = c :: cs
      simp only [replaceTvgAux]
      rw [hm, ih hcount]
    · exfalso
      rw [countTvgAux_match hm] at h
      omega

theorem replaceTvgAll_id {xid s : Str} (h : countTvg s = 0) : replaceTvgAll xid s = s :=
  replaceTvgAux_id xid s h

theorem not_infix_attr {x e : Str} (hx : '\"' ∉ x) (h : countTvg e = 0) :
    ¬ tvgAttr x <:+: e := by
  intro hinf
  rcases hinf with ⟨p, t, hpt⟩
  exact count_ne_of_hasTvgOcc
    ⟨p, x, t, hx, by rw [← hpt]; simp [tvgAttr, List.append_assoc]⟩ h

theorem digit_ne_dash {c : Char} (h : c.isDigit = true) : c ≠ '-' := by
  intro he
  rw [he] at h
  exact absurd h (by decide)

theorem digit_ne_t {c : Char} (h : c.isDigit = true) : c ≠ 't' := by
  intro he
  rw [he] at h
  exact absurd h (by decide)

theorem takeWhile_all {p : Char → Bool} :
    ∀ {u : Str}, (∀ c ∈ u, p c = true) → List.takeWhile p u = u := by
  intro u
  induction u with
  | nil => intro _; rfl
  | cons a u ih =>
    intro hu
    simp only [List.takeWhile_cons, hu a (List.mem_cons_self _ _), if_true]
    rw [ih (fun c hc => hu c (List.mem_cons_of_mem _ hc))]

theorem extinfNumAt_of_shape {sign ds rest : Str}
    (hsign : sign = [] ∨ sign = [ '-' ])
    (hds1 : ds ≠ []) (hds2 : ∀ c ∈ ds, c.isDigit = true)
    (hrest : ∀ c, rest.head? = some c → c.isDigit = false) :
    extinfNumAt (extinfHead ++ sign ++ ds ++ rest) =
      some (extinfHead ++ sign ++ ds, rest) := by
  have hlen : extinfHead.length = 8 := rfl
  have htake : (extinfHead ++ sign ++ ds ++ rest).take 8 = extinfHead := by
    rw [List.append_assoc, List.append_assoc, ← hlen]
    exact List.take_left extinfHead _
  have hdrop : (extinfHead ++ sign ++ ds ++ rest).drop 8 = sign ++ (ds ++ rest) := by
    rw [List.append_assoc, List.append_assoc, ← hlen]
    exact List.drop_left extinfHead _
  have htw : (ds ++ rest).takeWhile (fun c => c.isDigit) = ds := by
    cases rest with
    | nil => rw [List.append_nil]; exact takeWhile_all hds2
    | cons w z => exact takeWhile_all_append hds2 (hrest w rfl)
  have hdroplen : (ds ++ rest).drop ds.length = rest := List.drop_left ds rest
  simp only [extinfNumAt]
  rw [if_pos htake, hdrop]
  rcases hsign with hs | hs <;> subst hs
  · have hhead : ¬((([] : Str) ++ (ds ++ rest)).head? = some '-') := by
      simp only [List.nil_append]
      rcases hdse : ds with _ | ⟨d0, ds'⟩
      · exact absurd hdse hds1
      · intro hcon
        simp only [List.cons_append, List.head?_cons, Option.some_inj] at hcon
        exact digit_ne_dash (hds2 d0 (hdse ▸ List.mem_cons_self _ _)) hcon
    rw [if_neg hhead]
    simp only [List.nil_append, List.length_nil, List.drop_zero]
    rw [htw, if_neg hds1, hdroplen]
  · have hhead : (([ '-' ] : Str) ++ (ds ++ rest)).head? = some '-' := rfl
    rw [if_pos hhead]
    have hdrop1 : ((([ '-' ] : Str) ++ (ds ++ rest)).drop ([ '-' ] : Str).length) =
        ds ++ rest := rfl
    rw [hdrop1, htw, if_neg hds1, hdroplen]

theorem insertTvgAfterNum_of_match {xid s m rest : Str}
    (h : extinfNumAt s = some (m, rest)) :
    insertTvgAfterNum xid s = m ++ ( ' ' :: tvgAttr xid) ++ rest := by
  cases s with
  | nil =>
    exfalso
    have hnone : extinfNumAt [] = none := by decide
    rw [hnone] at h
    exact absurd h (by simp)
  | cons c cs =>
    simp only [insertTvgAfterNum]
    rw [h]

theorem rfindComma_eq_none {l : Str} (h : ',' ∉ l) : rfindComma l = none := by
  induction l with
  | nil => rfl
  | cons c cs ih =>
    simp only [rfindComma]
    rw [ih (fun hm => h (List.mem_cons_of_mem _ hm))]
    have hc : ¬(c = ',') := fun he => h (he ▸ List.mem_cons_self _ _)
    simp [hc]

theorem rfindComma_last {v : Str} (hv : ',' ∉ v) :
    ∀ (u : Str), rfindComma (u ++ ( ',' :: v)) = some u.length := by
  intro u
  induction u with
  | nil =>
    simp only [List.nil_append, rfindComma]
    rw [rfindComma_eq_none hv]
    simp
  | cons c u ih =>
    simp only [List.cons_append, rfindComma, List.append_eq]
    rw [ih]
    simp

theorem take_last_comma (u v : Str) :
    (u ++ ( ',' :: v)).take (u.length + 1) = u ++ [ ',' ] := by
  rw [List.take_add]
  rw [List.take_left u ( ',' :: v), List.drop_left u ( ',' :: v)]
  rfl

theorem drop_last_comma : ∀ (u v : Str), (u ++ ( ',' :: v)).drop (u.length + 1) = v := by
  intro u
  induction u with
  | nil => intro v; rfl
  | cons c u ih =>
    intro v
    show (u ++ ( ',' :: v)).drop (u.length + 1) = v
    exact ih v

theorem last_nonspace_append {u d : Str}
    (hd : ∀ c, d.getLast? = some c → pyIsSpace c = false) :
    ∀ c, (u ++ ( ',' :: d)).getLast? = some c → pyIsSpace c = false := by
  intro c hc
  rcases d with _ | ⟨e, d'⟩
  · have : (u ++ [ ',' ]).getLast? = some ',' := List.getLast?_concat u
    rw [this] at hc
    simp only [Option.some_inj] at hc
    subst hc
    decide
  · rw [List.getLast?_append] at hc
    have hgl : ( ',' :: e :: d').getLast? = (e :: d').getLast? := List.getLast?_cons_cons
    rw [hgl] at hc
    have hex : ∃ cc, (e :: d').getLast? = some cc := by
      cases hgl2 : (e :: d').getLast? with
      | none => exact absurd hgl2 (by simp)
      | some cc => exact ⟨cc, rfl⟩
    rcases hex with ⟨cc, hgl2⟩
    rw [hgl2] at hc
    have hor : (some cc : Option Char).or u.getLast? = some cc := rfl
    rw [hor] at hc
    have hcc : c = cc := (Option.some_inj.mp hc).symm
    rw [hcc]
    exact hd cc hgl2

/-- C6 counterexample — the claim promises that the generated descriptor of
every selected, associated entry without an identifier attribute contains
exactly one identifier attribute.  For the descriptor `#EXTINF:,Old` (legal
per the playlist parser, but with no digits after `#EXTINF:`) the insertion
regex matches nowhere, and the playlist generator writes a descriptor with no
identifier attribute at all. -/
theorem generate_m3u_insert_counterexample :
    (generate_m3u [⟨sampleM3uNoNum, some sampleGuideNew, 100, true⟩]).1 =
        [ "#EXTM3U".toList, "#EXTINF:,New".toList, "http://u3".toList ] ∧
      countTvg "#EXTINF:,New".toList = 0 := by decide

/-- C6 (amended) — For every selected, associated entry whose original
descriptor has no identifier attribute, starts with `#EXTINF:` followed by an
optional minus sign and a non-empty digit run (not followed by a further
digit), and contains a comma, and whose matched channel has a quote-free
identifier and a quote-free, comma-free, right-trimmed primary display name:
the descriptor written by the playlist generator is exactly the original
descriptor with one identifier attribute carrying the matched channel's
identifier inserted after the leading numeric field and with the text after
the final comma replaced by the matched channel's primary display name
(first conjunct — everything else byte-for-byte); it contains exactly one
identifier attribute (second conjunct); and the text after its final comma
is exactly the display name (third conjunct). -/
theorem generate_m3u_descriptor
    (sign ds mid tail x d : Str)
    (hsign : sign = [] ∨ sign = [ '-' ])
    (hds1 : ds ≠ []) (hds2 : ∀ c ∈ ds, c.isDigit = true)
    (hmid : ∀ c, (mid ++ ( ',' :: tail)).head? = some c → c.isDigit = false)
    (hnoattr : countTvg (extinfHead ++ sign ++ ds ++ (mid ++ ( ',' :: tail))) = 0)
    (htail : ',' ∉ tail)
    (hx : '\"' ∉ x)
    (hd1 : '\"' ∉ d) (hd2 : ',' ∉ d)
    (hd3 : ∀ c, d.getLast? = some c → pyIsSpace c = false) :
    writtenDescriptor (extinfHead ++ sign ++ ds ++ (mid ++ ( ',' :: tail))) x d =
        extinfHead ++ sign ++ ds ++ ( ' ' :: tvgAttr x) ++ (mid ++ ( ',' :: d)) ∧
      countTvg
        (writtenDescriptor (extinfHead ++ sign ++ ds ++ (mid ++ ( ',' :: tail))) x d)
        = 1 ∧
      afterLastComma
        (writtenDescriptor (extinfHead ++ sign ++ ds ++ (mid ++ ( ',' :: tail))) x d)
        = d := by
  set e := extinfHead ++ sign ++ ds ++ (mid ++ ( ',' :: tail)) with he
  have hs1 : replaceTvgAll x e = e := replaceTvgAll_id hnoattr
  have hs2 : ¬ tvgAttr x <:+: e := not_infix_attr hx hnoattr
  have hs3 : insertTvgAfterNum x e =
      (extinfHead ++ sign ++ ds) ++ ( ' ' :: tvgAttr x) ++ (mid ++ ( ',' :: tail)) :=
    insertTvgAfterNum_of_match (extinfNumAt_of_shape hsign hds1 hds2 hmid)
  set U := (extinfHead ++ sign ++ ds) ++ ( ' ' :: tvgAttr x) ++ mid with hU
  have hs3' : insertTvgAfterNum x e = U ++ ( ',' :: tail) := by
    rw [hs3, hU]
    simp [List.append_assoc]
  have hrewrite : rewriteExtinf e x d = U ++ ( ',' :: d) := by
    simp only [rewriteExtinf]
    rw [hs1, if_neg hs2, hs3']
    rw [rfindComma_last htail U]
    show List.take (U.length + 1) (U ++ ( ',' :: tail)) ++ d = U ++ ( ',' :: d)
    rw [take_last_comma U tail]
    simp [List.append_assoc]
  have hhd : (U ++ ( ',' :: d)).head? = some '#' := by rw [hU]; rfl
  have hwd : writtenDescriptor e x d = U ++ ( ',' :: d) := by
    unfold writtenDescriptor
    rw [hrewrite]
    apply pyStrip_eq_self
    · intro c0 hc0
      rw [hhd] at hc0
      have : c0 = '#' := Option.some_inj.mp hc0.symm
      rw [this]
      decide
    · exact last_nonspace_append hd3
  have hP : ∀ c ∈ (extinfHead ++ sign ++ ds) ++ [ ' ' ], c ≠ 't' := by
    intro c hc
    simp only [List.mem_append, List.mem_singleton] at hc
    rcases hc with ((hc | hc) | hc) | hc
    · rw [extinfHead_eq] at hc
      simp only [List.mem_cons, List.not_mem_nil, or_false] at hc
      rcases hc with h|h|h|h|h|h|h|h <;> subst h <;> decide
    · rcases hsign with hs | hs <;> subst hs
      · exact absurd hc (List.not_mem_nil c)
      · simp only [List.mem_singleton] at hc
        subst hc
        decide
    · exact digit_ne_t (hds2 c hc)
    · subst hc
      decide
  have hZ : countTvgAux (mid ++ ( ',' :: d)) 0 = 0 := by
    by_contra hne
    have hocc := hasTvgOcc_of_count hne
    have hshape1 : mid ++ ( ',' :: d) = (mid ++ [ ',' ]) ++ d := by
      simp [List.append_assoc]
    rw [hshape1] at hocc
    have hocc2 : HasTvgOcc (mid ++ [ ',' ]) := hasTvgOcc_confine hocc hd1
    have hocc3 : HasTvgOcc ((extinfHead ++ sign ++ ds) ++ (mid ++ [ ',' ]) ++ tail) :=
      hasTvgOcc_middle _ _ hocc2
    have hshape2 : (extinfHead ++ sign ++ ds) ++ (mid ++ [ ',' ]) ++ tail = e := by
      rw [he]
      simp [List.append_assoc]
    rw [hshape2] at hocc3
    exact count_ne_of_hasTvgOcc hocc3 hnoattr
  refine ⟨?_, ?_, ?_⟩
  · rw [hwd, hU]
    simp [List.append_assoc]
  · rw [hwd]
    have hsh : U ++ ( ',' :: d) =
        ((extinfHead ++ sign ++ ds) ++ [ ' ' ]) ++ (tvgAttr x ++ (mid ++ ( ',' :: d))) := by
      rw [hU]
      simp [List.append_assoc]
    rw [hsh]
    show countTvgAux _ 0 = 1
    rw [countTvgAux_no_t hP, countTvgAux_attr hx, hZ]
  · rw [hwd]
    unfold afterLastComma
    rw [rfindComma_last hd2 U]
    exact drop_last_comma U d

theorem generate_m3u_descriptor_witness :
    countTvg
        (writtenDescriptor
          (extinfHead ++ [ '-' ] ++ "1".toList ++
            (" group-title=\"News\"".toList ++ ( ',' :: "Old Name".toList)))
          "hbo.us".toList "HBO East HD".toList) = 1 ∧
      afterLastComma
        (writtenDescriptor
          (extinfHead ++ [ '-' ] ++ "1".toList ++
            (" group-title=\"News\"".toList ++ ( ',' :: "Old Name".toList)))
          "hbo.us".toList "HBO East HD".toList) = "HBO East HD".toList :=
  ⟨(generate_m3u_descriptor [ '-' ] "1".toList " group-title=\"News\"".toList
      "Old Name".toList "hbo.us".toList "HBO East HD".toList
      (by decide) (by decide) (by decide)
      (fun c hc => by
        have h1 : some ' ' = some c := hc
        have h2 : c = ' ' := Option.some_inj.mp h1.symm
        rw [h2]
        decide)
      (by decide) (by decide) (by decide) (by decide) (by decide)
      (fun c hc => by
        have h1 : some 'D' = some c := hc
        have h2 : c = 'D' := Option.some_inj.mp h1.symm
        rw [h2]
        decide)).2.1,
    (generate_m3u_descriptor [ '-' ] "1".toList " group-title=\"News\"".toList
      "Old Name".toList "hbo.us".toList "HBO East HD".toList
      (by decide) (by decide) (by decide)
      (fun c hc => by
        have h1 : some ' ' = some c := hc
        have h2 : c = ' ' := Option.some_inj.mp h1.symm
        rw [h2]
        decide)
      (by decide) (by decide) (by decide) (by decide) (by decide)
      (fun c hc => by
        have h1 : some 'D' = some c := hc
        have h2 : c = 'D' := Option.some_inj.mp h1.symm
        rw [h2]
        decide)).2.2⟩

/-! ### Sortedness of the guide generator's channel output (claim C7) -/

theorem strLe_cons_self {x : Char} {as bs : Str} :
    strLe (x :: as) (x :: bs) = strLe as bs := by
  simp [strLe]

theorem strLe_total : ∀ (a b : Str), strLe a b = true ∨ strLe b a = true := by
  intro a
  induction a with
  | nil => intro b; exact Or.inl rfl
  | cons x as ih =>
    intro b
    cases b with
    | nil => exact Or.inr rfl
    | cons y bs =>
      rcases lt_trichotomy x y with h | h | h
      · left
        simp [strLe, h]
      · subst h
        rw [strLe_cons_self, strLe_cons_self]
        exact ih bs
      · right
        simp [strLe, h]

theorem strLe_trans : ∀ {a b c : Str}, strLe a b = true → strLe b c = true →
    strLe a c = true := by
  intro a
  induction a with
  | nil => intro b c _ _; rfl
  | cons x as ih =>
    intro b c hab hbc
    cases b with
    | nil => simp [strLe] at hab
    | cons y bs =>
      cases c with
      | nil => simp [strLe] at hbc
      | cons z cs =>
        by_cases hxy : x < y
        · by_cases hyz : y < z
          · simp [strLe, lt_trans hxy hyz]
          · have hyz2 : y = z := by
              by_contra hne
              simp [strLe, hyz, hne] at hbc
            subst hyz2
            simp [strLe, hxy]
        · have hxy2 : x = y := by
            by_contra hne
            simp [strLe, hxy, hne] at hab
          subst hxy2
          rw [strLe_cons_self] at hab
          by_cases hyz : x < z
          · simp [strLe, hyz]
          · have hyz2 : x = z := by
              by_contra hne
              simp [strLe, hyz, hne] at hbc
            subst hyz2
            rw [strLe_cons_self] at hbc
            rw [strLe_cons_self]
            exact ih hab hbc

theorem mem_insortStr {x y : Str} : ∀ {l : List Str},
    y ∈ insortStr x l ↔ y = x ∨ y ∈ l := by
  intro l
  induction l with
  | nil => simp [insortStr]
  | cons z zs ih =>
    simp only [insortStr]
    split
    · simp [List.mem_cons]
    · simp only [List.mem_cons, ih]
      tauto

theorem insortStr_perm (x : Str) : ∀ (l : List Str), List.Perm (insortStr x l) (x :: l) := by
  intro l
  induction l with
  | nil => exact List.Perm.refl _
  | cons z zs ih =>
    simp only [insortStr]
    split
    · exact List.Perm.refl _
    · exact List.Perm.trans (List.Perm.cons z ih) (List.Perm.swap x z zs)

theorem sortStrs_perm : ∀ (l : List Str), List.Perm (sortStrs l) l := by
  intro l
  induction l with
  | nil => exact List.Perm.refl _
  | cons x xs ih =>
    simp only [sortStrs]
    exact List.Perm.trans (insortStr_perm x _) (List.Perm.cons x ih)

theorem sorted_insortStr {x : Str} :
    ∀ {l : List Str}, List.Pairwise (fun a b => strLe a b = true) l →
      List.Pairwise (fun a b => strLe a b = true) (insortStr x l) := by
  intro l
  induction l with
  | nil => intro _; simp [insortStr]
  | cons z zs ih =>
    intro hp
    rcases List.pairwise_cons.mp hp with ⟨hz, hzs⟩
    simp only [insortStr]
    split
    · next hle =>
      refine List.pairwise_cons.mpr ⟨?_, hp⟩
      intro b hb
      rcases List.mem_cons.mp hb with hb | hb
      · subst hb; exact hle
      · exact strLe_trans hle (hz b hb)
    · next hnle =>
      have hle2 : strLe z x = true := by
        rcases strLe_total x z with h | h
        · exact absurd h hnle
        · exact h
      refine List.pairwise_cons.mpr ⟨?_, ih hzs⟩
      intro b hb
      rcases mem_insortStr.mp hb with hb | hb
      · subst hb; exact hle2
      · exact hz b hb

theorem sorted_sortStrs : ∀ (l : List Str),
    List.Pairwise (fun a b => strLe a b = true) (sortStrs l) := by
  intro l
  induction l with
  | nil => simp [sortStrs]
  | cons x xs ih => exact sorted_insortStr ih

/-! ### Pass-1 invariants and the emitted document (claim C7) -/

theorem xmltvPass1_fold_inv (fullMap : Str → Option Str) :
    ∀ (processed : List ProcessedChannel) (st : List Str × List Str),
      st.2.Nodup → (∀ i ∈ st.2, (fullMap i).isSome = true) →
      (processed.foldl (xmltvPass1Step fullMap) st).2.Nodup ∧
        ∀ i ∈ (processed.foldl (xmltvPass1Step fullMap) st).2,
          (fullMap i).isSome = true := by
  intro processed
  induction processed with
  | nil => intro st h1 h2; exact ⟨h1, h2⟩
  | cons item rest ih =>
    intro st h1 h2
    have hstep : (xmltvPass1Step fullMap st item).2.Nodup ∧
        ∀ i ∈ (xmltvPass1Step fullMap st item).2, (fullMap i).isSome = true := by
      cases hm : item.xmltv_match with
      | none =>
        simp only [xmltvPass1Step, hm]
        exact ⟨h1, h2⟩
      | some xmltv =>
        simp only [xmltvPass1Step, hm]
        by_cases hsel : item.selected = true ∧ xmltv.id ≠ []
        · rw [if_pos hsel]
          by_cases hcond : (fullMap xmltv.id).isSome = true ∧ xmltv.id ∉ st.2
          · rw [if_pos hcond]
            refine ⟨?_, ?_⟩
            · rw [List.nodup_append]
              refine ⟨h1, List.nodup_singleton _, ?_⟩
              intro a ha hb
              rw [List.mem_singleton] at hb
              subst hb
              exact hcond.2 ha
            · intro i hi
              rcases List.mem_append.mp hi with hi | hi
              · exact h2 i hi
              · rw [List.mem_singleton] at hi
                subst hi
                exact hcond.1
          · rw [if_neg hcond]
            exact ⟨h1, h2⟩
        · rw [if_neg hsel]
          exact ⟨h1, h2⟩
    exact ih _ hstep.1 hstep.2

theorem chanElems_ids {fullMap : Str → Option Str} :
    ∀ {keys : List Str}, (∀ i ∈ keys, (fullMap i).isSome = true) →
      ((keys.filterMap
          (fun i => (fullMap i).map (fun el => XmltvOutElem.channel i el))).filterMap
        chanIdOf) = keys := by
  intro keys
  induction keys with
  | nil => intro _; rfl
  | cons k ks ih =>
    intro hmem
    have hk := hmem k (List.mem_cons_self _ _)
    rcases hs : fullMap k with _ | el
    · rw [hs] at hk
      exact absurd hk (by simp)
    · simp only [List.filterMap_cons, hs, Option.map_some']
      simp only [chanIdOf, List.filterMap_cons]
      rw [ih (fun i hi => hmem i (List.mem_cons_of_mem _ hi))]

theorem chanElems_countP (fullMap : Str → Option Str) :
    ∀ (keys : List Str),
      ((keys.filterMap
          (fun i => (fullMap i).map (fun el => XmltvOutElem.channel i el))).countP
        isProgElem) = 0 := by
  intro keys
  induction keys with
  | nil => rfl
  | cons k ks ih =>
    rcases hs : fullMap k with _ | el
    · simp only [List.filterMap_cons, hs, Option.map_none']
      exact ih
    · simp only [List.filterMap_cons, hs, Option.map_some']
      rw [List.countP_cons]
      simp [isProgElem, ih]

theorem filterMap_chanIdOf_map_programme (progs : List XmltvProgramme) :
    (progs.map XmltvOutElem.programme).filterMap chanIdOf = [] := by
  induction progs with
  | nil => rfl
  | cons p ps ih =>
    simp only [List.map_cons, List.filterMap_cons, chanIdOf]
    exact ih

theorem countP_prog_map (progs : List XmltvProgramme) :
    (progs.map XmltvOutElem.programme).countP isProgElem = progs.length := by
  induction progs with
  | nil => rfl
  | cons p ps ih =>
    simp only [List.map_cons, List.countP_cons, isProgElem, if_true, ih,
      List.length_cons]

/-- C7 — For every family of guide sources whose program entries partly
reference wanted channels, the document emitted by the guide generator
contains exactly the wanted subset count of program entries (summed per
source file), the captured channel subtrees are emitted in ascending
identifier order without duplicates, and the generator returns the count of
distinct channels emitted and the count of program entries emitted. -/
theorem generate_xmltv_spec (processed : List ProcessedChannel)
    (files : List XmltvSourceFile)
    (h : (xmltvPass1 (fullChannelDataMap files) processed).1 ≠ []) :
    ∃ doc, (generate_xmltv processed files).doc = some doc ∧
      doc.countP isProgElem =
        (files.map (fun f => f.programmes.countP
          (fun p => decide (p.channel ∈
            (xmltvPass1 (fullChannelDataMap files) processed).1)))).sum ∧
      List.Pairwise (fun a b => strLe a b = true) (doc.filterMap chanIdOf) ∧
      (doc.filterMap chanIdOf).Nodup ∧
      (generate_xmltv processed files).channelCount = (doc.filterMap chanIdOf).length ∧
      (generate_xmltv processed files).programCount = doc.countP isProgElem := by
  have hinv : (xmltvPass1 (fullChannelDataMap files) processed).2.Nodup ∧
      ∀ i ∈ (xmltvPass1 (fullChannelDataMap files) processed).2,
        ((fullChannelDataMap files) i).isSome = true :=
    xmltvPass1_fold_inv _ processed ([], []) List.nodup_nil
      (fun i hi => absurd hi (List.not_mem_nil i))
  have hgen : generate_xmltv processed files =
      ⟨some ((sortStrs (xmltvPass1 (fullChannelDataMap files) processed).2).filterMap
          (fun i => ((fullChannelDataMap files) i).map
            (fun el => XmltvOutElem.channel i el)) ++
        (files.flatMap (fun f => f.programmes.filter
          (fun p => decide (p.channel ∈
            (xmltvPass1 (fullChannelDataMap files) processed).1)))).map
          XmltvOutElem.programme),
        (xmltvPass1 (fullChannelDataMap files) processed).2.length,
        (files.flatMap (fun f => f.programmes.filter
          (fun p => decide (p.channel ∈
            (xmltvPass1 (fullChannelDataMap files) processed).1)))).length⟩ := by
    simp only [generate_xmltv]
    rw [if_neg h]
  set fullMap := fullChannelDataMap files with hfm
  set st := xmltvPass1 fullMap processed with hst
  set A := (sortStrs st.2).filterMap
    (fun i => (fullMap i).map (fun el => XmltvOutElem.channel i el)) with hA
  set progs := files.flatMap (fun f => f.programmes.filter
    (fun p => decide (p.channel ∈ st.1))) with hprogs
  have hkeys_mem : ∀ i ∈ sortStrs st.2, (fullMap i).isSome = true := by
    intro i hi
    exact hinv.2 i ((sortStrs_perm st.2).mem_iff.mp hi)
  have hids : ((A ++ progs.map XmltvOutElem.programme).filterMap chanIdOf) =
      sortStrs st.2 := by
    rw [List.filterMap_append, filterMap_chanIdOf_map_programme, List.append_nil, hA]
    exact chanElems_ids hkeys_mem
  have hcount : (A ++ progs.map XmltvOutElem.programme).countP isProgElem =
      progs.length := by
    rw [List.countP_append, hA, chanElems_countP, countP_prog_map, Nat.zero_add]
  rw [hgen]
  refine ⟨A ++ progs.map XmltvOutElem.programme, rfl, ?_, ?_, ?_, ?_, ?_⟩
  · rw [hcount, hprogs, List.length_flatMap]
    have hfun : (List.length ∘ fun f : XmltvSourceFile =>
        List.filter (fun p => decide (p.channel ∈ st.1)) f.programmes) =
        (fun f : XmltvSourceFile =>
          List.countP (fun p => decide (p.channel ∈ st.1)) f.programmes) :=
      funext (fun f => (List.countP_eq_length_filter _ _).symm)
    rw [hfun]
  · rw [hids]
    exact sorted_sortStrs st.2
  · rw [hids]
    exact ((sortStrs_perm st.2).nodup_iff).mpr hinv.1
  · show st.2.length = _
    rw [hids]
    exact ((sortStrs_perm st.2).length_eq).symm
  · show progs.length = _
    rw [hcount]

theorem generate_xmltv_spec_witness :
    ∃ doc, (generate_xmltv [⟨sampleM3uId, some sampleGuide, 100, true⟩]
        [sampleFile]).doc = some doc ∧
      doc.countP isProgElem =
        ([sampleFile].map (fun f => f.programmes.countP
          (fun p => decide (p.channel ∈
            (xmltvPass1 (fullChannelDataMap [sampleFile])
              [⟨sampleM3uId, some sampleGuide, 100, true⟩]).1)))).sum ∧
      List.Pairwise (fun a b => strLe a b = true) (doc.filterMap chanIdOf) ∧
      (doc.filterMap chanIdOf).Nodup ∧
      (generate_xmltv [⟨sampleM3uId, some sampleGuide, 100, true⟩]
        [sampleFile]).channelCount = (doc.filterMap chanIdOf).length ∧
      (generate_xmltv [⟨sampleM3uId, some sampleGuide, 100, true⟩]
        [sampleFile]).programCount = doc.countP isProgElem :=
  generate_xmltv_spec [⟨sampleM3uId, some sampleGuide, 100, true⟩] [sampleFile]
    (by decide)
